import Mathlib

/-!
Verification of the buddy allocator tree (`src/kernel/crates/buddy-alloc/src/tree.rs`)
and its page-allocator wrapper (`src/kernel/crates/allocator/src/lib.rs`,
`src/kernel/src/alloc.rs`) of the micropuppy kernel.

The Rust code is embedded shallowly:

* the tree's bit buffer (`&mut BitSlice<u8, Msb0>`, truncated to exactly
  `storage_bits_required(leaf_blocks)` bits by `Tree::new`) is a `List Bool`;
* `usize` values are `Nat`; the single place where `usize` subtraction can
  underflow (`let depth = self.depth - height;` in `Tree::allocate`) is modelled
  explicitly: `Tree.allocate` returns `none` there, mirroring the
  "attempt to subtract with overflow" panic of a debug build, which is the
  repository's default build profile (runner `--debug` is the default);
* the recursive pre-order traversal and the `buddies` ancestor walks are
  structurally recursive on an explicit fuel argument; the Rust recursion is
  bounded by the tree depth, and every call site passes enough fuel for the
  fuel never to run out (the completeness lemmas make this precise);
* fallible operations return `Except` values paired with the post-state.
-/

set_option maxRecDepth 40000

deriving instance DecidableEq for Except

namespace Micropuppy

/-- Block states stored in the tree bitmap (tree.rs, `enum BlockState`). -/
inductive BlockState where
  | free
  | allocated
  | superblock
  | superblockFull
deriving DecidableEq

/-- Visitor actions for the pre-order walk (tree.rs, `enum Action<T>`), specialised
to `T = BlockIndex`: both call sites in tree.rs yield the visited block index. -/
inductive Action where
  | yield (block : Nat)
  | skip
  | descend
deriving DecidableEq

/-- Fuelled evaluator of `Nat.log2` (Rust `usize::ilog2` on positive numbers).
It is structurally recursive so that the kernel can evaluate concrete instances;
`log2c_eq` proves it equal to `Nat.log2`. -/
def log2Aux : Nat → Nat → Nat
  | 0, _ => 0
  | fuel + 1, n => if 2 ≤ n then log2Aux fuel (n / 2) + 1 else 0

/-- `Nat.log2` by another (kernel-reducible) name; see `log2c_eq`. -/
def log2c (n : Nat) : Nat := log2Aux n n

/-- `BlockIndex::depth`: `(self.0 + 1).ilog2() as usize`. -/
def bdepth (i : Nat) : Nat := log2c (i + 1)

/-- `BlockIndex::offset`: `self.0 + 1 - (1 << self.depth())`. -/
def boffset (i : Nat) : Nat := i + 1 - (1 <<< bdepth i)

/-- `BlockIndex::superblock` (the parent index), meaningful for `i ≠ 0`:
`(self.0 - 1) / 2`. -/
def parentIdx (i : Nat) : Nat := (i - 1) / 2

/-- `BlockIndex::buddy` (the sibling index), meaningful for `i ≠ 0`:
`((self.0 - 1) ^ 1) + 1`. -/
def buddyIdx (i : Nat) : Nat := ((i - 1) ^^^ 1) + 1

/-- `BlockIndex::subblocks`: `(2 * self.0 + 1, 2 * self.0 + 2)`. -/
def leftChild (i : Nat) : Nat := 2 * i + 1

/-- Right sub-block of `BlockIndex::subblocks`. -/
def rightChild (i : Nat) : Nat := 2 * i + 2

/-- `usize::next_power_of_two`: the smallest power of two `≥ n` (1 for 0 and 1). -/
def nextPow2 (n : Nat) : Nat := if n ≤ 1 then 1 else 2 ^ (log2c (n - 1) + 1)

/-- The buddy tree (tree.rs, `struct Tree`). `storage` models the bit buffer the
Rust code views through `BitSlice<u8, Msb0>`, already truncated by `Tree::new` to
exactly `storage_bits_required(leaf_blocks)` bits. -/
structure Tree where
  storage : List Bool
  leafBlocks : Nat
  depth : Nat
  firstLeaf : Nat
deriving DecidableEq

/-- A successful allocation in blocks (tree.rs, `struct Allocation`). -/
structure Allocation where
  offset : Nat
  size : Nat
deriving DecidableEq

/-- tree.rs, `struct OutOfMemoryError`. -/
structure OutOfMemoryError where
deriving DecidableEq

/-- tree.rs, `struct DoubleFreeError`. -/
structure DoubleFreeError where
deriving DecidableEq

/-- Read one bit of the buffer (`self.storage[index]`); every use site indexes in
range, so the `false` default is never consulted there. -/
def bitGet (l : List Bool) (n : Nat) : Bool := l.getD n false

/-- `Tree::storage_bits_required`: round the leaf count up to a power of two `L`
and return `(L - 1) * NONLEAF_BITS + L * LEAF_BITS`. -/
def Tree.storageBitsRequired (leafBlocks : Nat) : Nat :=
  (nextPow2 leafBlocks - 1) * 2 + nextPow2 leafBlocks * 1

/-- `Tree::new`: `depth = leaf_blocks.next_power_of_two().ilog2()`,
`first_leaf = (1 << depth) - 1`, and the storage is truncated to
`storage_bits_required(leaf_blocks)` bits and filled with `false` (all blocks
free). The Rust function asserts `leaf_blocks > 0`; all uses here have that. -/
def Tree.new (leafBlocks : Nat) : Tree :=
  let depth := log2c (nextPow2 leafBlocks)
  { storage := List.replicate (Tree.storageBitsRequired leafBlocks) false
    leafBlocks := leafBlocks
    depth := depth
    firstLeaf := (1 <<< depth) - 1 }

/-- `Tree::block_count`: `(1 << (self.depth + 1)) - 1`. -/
def Tree.blockCount (t : Tree) : Nat := (1 <<< (t.depth + 1)) - 1

/-- `Tree::has_block`: `block.0 < self.block_count()`. -/
def Tree.hasBlock (t : Tree) (i : Nat) : Bool := decide (i < t.blockCount)

/-- `Tree::state`: decode a block's state from the bitmap. Internal blocks
(`i < first_leaf`) use two bits `(subdivided, allocated_or_full)` at index `2 * i`;
leaf blocks use the single bit at `2 * first_leaf + (i - first_leaf)`. -/
def Tree.state (t : Tree) (i : Nat) : BlockState :=
  if i < t.firstLeaf then
    match bitGet t.storage (2 * i), bitGet t.storage (2 * i + 1) with
    | false, false => .free
    | false, true => .allocated
    | true, false => .superblock
    | true, true => .superblockFull
  else
    match bitGet t.storage (2 * t.firstLeaf + (i - t.firstLeaf)) with
    | false => .free
    | true => .allocated

/-- `Tree::set_state`: encode a block's state into the bitmap. For a leaf block a
superblock state makes the Rust code panic ("leaf blocks cannot be superblocks");
that branch is modelled as a no-op and proven unreachable from the public
operations (the ancestor walks only write superblock states to parents, which are
internal blocks). -/
def Tree.setState (t : Tree) (i : Nat) (s : BlockState) : Tree :=
  if i < t.firstLeaf then
    match s with
    | .free => { t with storage := (t.storage.set (2 * i) false).set (2 * i + 1) false }
    | .allocated => { t with storage := (t.storage.set (2 * i) false).set (2 * i + 1) true }
    | .superblock => { t with storage := (t.storage.set (2 * i) true).set (2 * i + 1) false }
    | .superblockFull => { t with storage := (t.storage.set (2 * i) true).set (2 * i + 1) true }
  else
    match s with
    | .free => { t with storage := t.storage.set (2 * t.firstLeaf + (i - t.firstLeaf)) false }
    | .allocated => { t with storage := t.storage.set (2 * t.firstLeaf + (i - t.firstLeaf)) true }
    | .superblock => t
    | .superblockFull => t

/-- The recursive helper inside `Tree::preorder`, with an explicit fuel argument.
The Rust recursion stops at blocks with `!tree.has_block(block)`, so its depth is
bounded by `tree.depth + 1`; `Tree.preorder` passes `depth + 2` fuel, which the
completeness lemmas show is never exhausted. -/
def preorderAux (blockCount : Nat) (visit : Nat → Action) : Nat → Nat → Option Nat
  | 0, _ => none
  | fuel + 1, i =>
    if i < blockCount then
      match visit i with
      | .yield v => some v
      | .skip => none
      | .descend =>
        match preorderAux blockCount visit fuel (leftChild i) with
        | some v => some v
        | none => preorderAux blockCount visit fuel (rightChild i)
    else
      none

/-- `Tree::preorder`: run the visitor from the root block. -/
def Tree.preorder (t : Tree) (visit : Nat → Action) : Option Nat :=
  preorderAux t.blockCount visit (t.depth + 2) 0

/-- The height for a requested size in `Tree::allocate`, defined for `size ≥ 1`:
`1` maps to `0`, otherwise `(size - 1).ilog2() + 1`. -/
def heightOf (size : Nat) : Nat :=
  if size = 1 then 0 else log2c (size - 1) + 1

/-- The visitor of the search in `Tree::allocate`, matching on
`(block.depth() == depth, self.state(block))`. -/
def allocVisitor (t : Tree) (d : Nat) (i : Nat) : Action :=
  if bdepth i = d then
    match t.state i with
    | .free => .yield i
    | _ => .skip
  else
    match t.state i with
    | .allocated => .skip
    | .superblockFull => .skip
    | _ => .descend

/-- The visitor of the search in `Tree::free`, matching on
`(self.state(block), block.offset() << height == offset)`. The `usize`
subtraction `self.depth - block.depth()` cannot underflow because every visited
block satisfies `block.depth() ≤ self.depth` (lemma `bdepth_le_depth`). -/
def freeVisitor (t : Tree) (offset : Nat) (i : Nat) : Action :=
  match t.state i with
  | .allocated => if boffset i <<< (t.depth - bdepth i) = offset then .yield i else .skip
  | .free => .skip
  | .superblock => .descend
  | .superblockFull => .descend

/-- The search inside `Tree::allocate` (its `self.preorder(|block| ...)` call),
for a target depth `d`. -/
def Tree.allocSearch (t : Tree) (d : Nat) : Option Nat := t.preorder (allocVisitor t d)

/-- The search inside `Tree::free` (its `self.preorder(|block| ...)` call). -/
def Tree.freeSearch (t : Tree) (offset : Nat) : Option Nat :=
  t.preorder (freeVisitor t offset)

/-- The second loop over `buddies` shared by `Tree::allocate` and `Tree::free`:
mark every remaining ancestor as a superblock. Fuel bounds the number of parent
steps; `bdepth j` steps reach the root, and every call site passes at least
`t.depth` fuel. -/
def markSuperAncestors (t : Tree) : Nat → Nat → Tree
  | 0, _ => t
  | fuel + 1, j =>
    if j = 0 then t
    else markSuperAncestors (t.setState (parentIdx j) .superblock) fuel (parentIdx j)

/-- The first loop over `buddies` in `Tree::allocate`: while the buddy is
`Allocated` or `SuperblockFull` mark the parent `SuperblockFull`; at the first
other buddy mark the parent `Superblock` and fall through to the second loop. -/
def markAllocAncestors (t : Tree) : Nat → Nat → Tree
  | 0, _ => t
  | fuel + 1, j =>
    if j = 0 then t
    else
      match t.state (buddyIdx j) with
      | .allocated => markAllocAncestors (t.setState (parentIdx j) .superblockFull) fuel (parentIdx j)
      | .superblockFull => markAllocAncestors (t.setState (parentIdx j) .superblockFull) fuel (parentIdx j)
      | _ => markSuperAncestors (t.setState (parentIdx j) .superblock) fuel (parentIdx j)

/-- The first loop over `buddies` in `Tree::free`: while the buddy is `Free` mark
the parent `Free` (coalescing); at the first non-`Free` buddy mark the parent
`Superblock` and fall through to the second loop. -/
def markFreeAncestors (t : Tree) : Nat → Nat → Tree
  | 0, _ => t
  | fuel + 1, j =>
    if j = 0 then t
    else
      match t.state (buddyIdx j) with
      | .free => markFreeAncestors (t.setState (parentIdx j) .free) fuel (parentIdx j)
      | _ => markSuperAncestors (t.setState (parentIdx j) .superblock) fuel (parentIdx j)

/-- `Tree::allocate`. `none` models the debug-build panic of the `usize`
subtraction `self.depth - height` when the rounded request exceeds the tree's
capacity (`height > depth`); the repository's runner builds the kernel with the
debug profile by default. On success the tree marks the found block `Allocated`
and rewrites its ancestors with the two `buddies` loops. -/
def Tree.allocate (t : Tree) (size : Nat) :
    Option (Except OutOfMemoryError Allocation × Tree) :=
  match size with
  | 0 => some (.error ⟨⟩, t)
  | _ + 1 =>
    if heightOf size ≤ t.depth then
      match t.allocSearch (t.depth - heightOf size) with
      | none => some (.error ⟨⟩, t)
      | some block =>
        let t1 := t.setState block .allocated
        some (.ok { offset := boffset block <<< heightOf size, size := 1 <<< heightOf size },
          markAllocAncestors t1 t1.depth block)
    else
      none

/-- `Tree::free`: find the `Allocated` block whose unit offset matches, mark it
`Free`, and rewrite its ancestors with the two `buddies` loops. -/
def Tree.free (t : Tree) (offset : Nat) : Except DoubleFreeError Unit × Tree :=
  match t.freeSearch offset with
  | none => (.error ⟨⟩, t)
  | some block =>
    let t1 := t.setState block .free
    (.ok (), markFreeAncestors t1 t1.depth block)

/-- Unit offset of a block: `block.offset() << height` with
`height = depth - block.depth()`, as computed in both `Tree::allocate` and
`Tree::free`. -/
def Tree.unitOffset (t : Tree) (i : Nat) : Nat := boffset i <<< (t.depth - bdepth i)

/-- Unit size of a block: `1 << (depth - block.depth())`. -/
def Tree.unitSize (t : Tree) (i : Nat) : Nat := 1 <<< (t.depth - bdepth i)

/-- Structural well-formedness established by `Tree::new` and preserved by every
operation: `first_leaf = 2 ^ depth - 1` and the buffer holds exactly
`storage_bits_required` bits for `2 ^ depth` leaves, i.e. `3 * 2 ^ depth - 2`. -/
def Tree.WF (t : Tree) : Prop :=
  t.firstLeaf = 2 ^ t.depth - 1 ∧ t.storage.length = 3 * 2 ^ t.depth - 2

instance (t : Tree) : Decidable t.WF := by
  unfold Tree.WF; infer_instance

/-- `PAGE_SIZE` (allocator/src/lib.rs). -/
def PAGE_SIZE : Nat := 4096

/-- The page allocator (allocator/src/lib.rs, `struct Allocator`). `heap` is the
byte address of the first managed page; pointer arithmetic on
`*const [u8; PAGE_SIZE]` advances by `PAGE_SIZE` bytes per page. -/
structure Allocator where
  tree : Tree
  heap : Nat
  treeLen : Nat
  heapLenPages : Nat
deriving DecidableEq

/-- A successful page allocation (allocator/src/lib.rs, `struct Allocation`):
`ptr` is a byte address, `size` a byte count. -/
structure PageAllocation where
  ptr : Nat
  size : Nat
deriving DecidableEq

/-- `Allocator::is_within_heap`: `allocation.offset + allocation.size <= self.heap_len_pages`. -/
def Allocator.isWithinHeap (a : Allocator) (al : Allocation) : Bool :=
  decide (al.offset + al.size ≤ a.heapLenPages)

/-- `Allocator::allocate`: delegate to `Tree::allocate`; if the tentative block
overflows the real heap, free it back (`.expect("Guaranteed by allocate")` — a
failing free would panic, modelled as `none` and proven unreachable) and report
`OutOfMemoryError`; otherwise return
`{ ptr: heap.add(offset), size: block_count * PAGE_SIZE }`. -/
def Allocator.allocate (a : Allocator) (blockCount : Nat) :
    Option (Except OutOfMemoryError PageAllocation × Allocator) :=
  match a.tree.allocate blockCount with
  | none => none
  | some (.error e, t') => some (.error e, { a with tree := t' })
  | some (.ok al, t') =>
    if a.isWithinHeap al then
      some (.ok { ptr := a.heap + al.offset * PAGE_SIZE, size := blockCount * PAGE_SIZE },
        { a with tree := t' })
    else
      match t'.free al.offset with
      | (.ok _, t2) => some (.error ⟨⟩, { a with tree := t2 })
      | (.error _, _) => none

/-! ### Specification-side definitions -/

/-- Unit offset of block `i` in a tree of depth `D`: `boffset i * 2 ^ (D - bdepth i)`.
Agrees with `Tree.unitOffset` (which uses the source's shift). -/
def aoff (D i : Nat) : Nat := boffset i * 2 ^ (D - bdepth i)

/-- First bit of the internal-node encoding (`subdivided`). -/
def subdividedBit : BlockState → Bool
  | .superblock => true
  | .superblockFull => true
  | _ => false

/-- Second bit of the internal-node encoding (`allocated_or_full`); for leaves,
the single `allocated` bit. -/
def allocOrFullBit : BlockState → Bool
  | .allocated => true
  | .superblockFull => true
  | _ => false

/-- The child-state combination of spec invariant I6: two free children make a
free parent, two full (allocated or full-superblock) children make a full
superblock, anything else a superblock. -/
def combine (l r : BlockState) : BlockState :=
  if l = .free ∧ r = .free then .free
  else if (l = .allocated ∨ l = .superblockFull) ∧ (r = .allocated ∨ r = .superblockFull) then
    .superblockFull
  else .superblock

/-- Local invariant at internal node `i`: an `Allocated` node has free children
(it was carved out of a free block and its subtree is untouched); any other node
carries exactly the state `combine` assigns from its children. -/
def InvAt (t : Tree) (i : Nat) : Prop :=
  (t.state i = .allocated → t.state (2 * i + 1) = .free ∧ t.state (2 * i + 2) = .free) ∧
    (t.state i ≠ .allocated → t.state i = combine (t.state (2 * i + 1)) (t.state (2 * i + 2)))

/-- The tree invariant: every internal node satisfies `InvAt`. -/
def Inv (t : Tree) : Prop := ∀ i, i < t.firstLeaf → InvAt t i

instance (t : Tree) : Decidable (Inv t) := by
  unfold Inv InvAt; infer_instance

/-- All strict ancestors of block `j`, parent first, computed by iterating
`parentIdx`; `j` itself is a sufficient fuel bound since parents decrease. -/
def ancListAux : Nat → Nat → List Nat
  | 0, _ => []
  | fuel + 1, j => if j = 0 then [] else parentIdx j :: ancListAux fuel (parentIdx j)

/-- The strict ancestors of `j` (parent, grandparent, …, root). -/
def strictAncestors (j : Nat) : List Nat := ancListAux j j

/-- Block `j` is a reachable free block at depth `d`: it is a valid block at
depth `d` whose stored state is `Free`, and no strict ancestor is `Allocated` or
`SuperblockFull` — exactly the subtrees the pre-order search of `Tree::allocate`
does not prune. -/
def Tree.reachableFree (t : Tree) (d j : Nat) : Prop :=
  j < t.blockCount ∧ bdepth j = d ∧ t.state j = .free ∧
    ∀ a ∈ strictAncestors j, t.state a ≠ .allocated ∧ t.state a ≠ .superblockFull

instance (t : Tree) (d j : Nat) : Decidable (t.reachableFree d j) := by
  unfold Tree.reachableFree; infer_instance

/-- The pair `(offset, size)` describes a live allocation of `t`: some block is
`Allocated` with that unit offset and unit size. -/
def Tree.liveSpec (t : Tree) (p : Nat × Nat) : Prop :=
  ∃ j, j < t.blockCount ∧ t.state j = .allocated ∧
    t.unitOffset j = p.1 ∧ t.unitSize j = p.2

/-- The inductive invariant carried through every reachable state: structural
well-formedness, the local invariant everywhere, and the bookkeeping list of
outstanding allocations matching the `Allocated` blocks, with pairwise distinct
offsets. -/
def Good (t : Tree) (live : List (Nat × Nat)) : Prop :=
  t.WF ∧ Inv t ∧ (∀ p, p ∈ live ↔ t.liveSpec p) ∧ (live.map Prod.fst).Nodup

/-- States reachable from a fresh tree by `Tree::allocate` / `Tree::free`,
together with the list of outstanding allocations (each successful allocation's
`(offset, size)`, removed again by the successful free of that offset). -/
inductive Reach : Tree → List (Nat × Nat) → Prop where
  | init {n : Nat} : 1 ≤ n → Reach (Tree.new n) []
  | allocOk {t live size al t'} : Reach t live →
      t.allocate size = some (.ok al, t') → Reach t' ((al.offset, al.size) :: live)
  | allocErr {t live size e t'} : Reach t live →
      t.allocate size = some (.error e, t') → Reach t' live
  | freeOk {t live off t'} : Reach t live →
      t.free off = (.ok (), t') → Reach t' (live.filter (fun p => p.1 != off))
  | freeErr {t live off e t'} : Reach t live →
      t.free off = (.error e, t') → Reach t' live

/-! ### Concrete trees and allocators used in witnesses and counterexamples

Each value below is the pre-computed result of the indicated operation
sequence; the claim witnesses re-check every step by `decide`. -/

/-- The tree produced by `(Tree.new 4).allocate 3` (root allocated). -/
def treeW1 : Tree :=
  ⟨[false, true, false, false, false, false, false, false, false, false], 4, 2, 3⟩

/-- The tree produced by `(Tree.new 4).allocate 1` (leaf 3 allocated). -/
def treeA : Tree :=
  ⟨[true, false, true, false, false, false, true, false, false, false], 4, 2, 3⟩

/-- The tree produced by `treeA.allocate 1` (leaves 3 and 4 allocated). -/
def treeB : Tree :=
  ⟨[true, false, true, true, false, false, true, true, false, false], 4, 2, 3⟩

/-- The tree produced by `(Tree.new 8).allocate 5` (root allocated). -/
def treeC : Tree := ⟨[false, true] ++ List.replicate 20 false, 8, 3, 7⟩

/-- The tree produced by `(Tree.new 2).allocate 1` (leaf 1 allocated). -/
def treeD : Tree := ⟨[true, false, true, false], 2, 1, 1⟩

/-- The tree produced by `(Tree.new 4).allocate 2` (node 1 allocated). -/
def treeE : Tree :=
  ⟨[true, false, false, true, false, false, false, false, false, false], 4, 2, 3⟩

/-- The tree produced by `treeE.allocate 1` (node 1 and leaf 5 allocated). -/
def treeF : Tree :=
  ⟨[true, false, false, true, true, false, false, false, true, false], 4, 2, 3⟩

/-- The tree produced by `treeE.allocate 2` (nodes 1 and 2 allocated). -/
def treeX : Tree :=
  ⟨[true, true, false, true, false, true, false, false, false, false], 4, 2, 3⟩

/-- A fresh page allocator over 4 nominal and 4 real heap pages. -/
def allocC1 : Allocator := ⟨Tree.new 4, 8192, 2, 4⟩

/-- A fresh page allocator over 4 nominal pages whose real heap is 3 pages
(the scenario of the `heap_overflow` test in allocator/src/lib.rs). -/
def alloc0 : Allocator := ⟨Tree.new 4, 8192, 2, 3⟩

/-- `alloc0` after a successful `allocate 2` at offset 0. -/
def alloc1 : Allocator := ⟨treeE, 8192, 2, 3⟩

/-- `alloc1` after a successful `allocate 1` at offset 2. -/
def alloc2 : Allocator := ⟨treeF, 8192, 2, 3⟩

/-! ### Arithmetic facts about block indices -/

theorem log2_rec (n : Nat) (h : 2 ≤ n) : Nat.log2 n = Nat.log2 (n / 2) + 1 := by
  rw [Nat.log2]
  simp [h]

theorem log2Aux_eq {fuel n : Nat} (h : n ≤ fuel) : log2Aux fuel n = Nat.log2 n := by
  induction fuel generalizing n with
  | zero =>
    have hn : n = 0 := by omega
    subst hn
    rw [Nat.log2]
    simp [log2Aux]
  | succ f ih =>
    by_cases h2 : 2 ≤ n
    · simp only [log2Aux, if_pos h2]
      rw [ih (by omega : n / 2 ≤ f), ← log2_rec n h2]
    · simp only [log2Aux, if_neg h2]
      rw [Nat.log2]
      simp [h2]

theorem log2c_eq (n : Nat) : log2c n = Nat.log2 n := log2Aux_eq (Nat.le_refl n)

theorem xor_one_even (i : Nat) : (2 * i) ^^^ 1 = 2 * i + 1 := by
  apply Nat.eq_of_testBit_eq
  intro k
  rw [Nat.testBit_xor]
  cases k with
  | zero => simp [Nat.testBit_zero, Nat.mul_add_mod]
  | succ k => simp [Nat.testBit_succ, Nat.mul_add_div]

theorem xor_one_odd (i : Nat) : (2 * i + 1) ^^^ 1 = 2 * i := by
  apply Nat.eq_of_testBit_eq
  intro k
  rw [Nat.testBit_xor]
  cases k with
  | zero => simp [Nat.testBit_zero, Nat.mul_add_mod]
  | succ k => simp [Nat.testBit_succ, Nat.mul_add_div]

theorem bdepth_zero : bdepth 0 = 0 := by decide

theorem bdepth_left (i : Nat) : bdepth (2 * i + 1) = bdepth i + 1 := by
  unfold bdepth
  rw [log2c_eq, log2c_eq]
  rw [show 2 * i + 1 + 1 = 2 * (i + 1) by omega, log2_rec (2 * (i + 1)) (by omega)]
  congr 2
  omega

theorem bdepth_right (i : Nat) : bdepth (2 * i + 2) = bdepth i + 1 := by
  unfold bdepth
  rw [log2c_eq, log2c_eq]
  rw [show 2 * i + 2 + 1 = 2 * (i + 1) + 1 by omega, log2_rec (2 * (i + 1) + 1) (by omega)]
  congr 2
  omega

theorem parentIdx_left (i : Nat) : parentIdx (2 * i + 1) = i := by
  unfold parentIdx; omega

theorem parentIdx_right (i : Nat) : parentIdx (2 * i + 2) = i := by
  unfold parentIdx; omega

theorem buddyIdx_left (i : Nat) : buddyIdx (2 * i + 1) = 2 * i + 2 := by
  unfold buddyIdx
  rw [show 2 * i + 1 - 1 = 2 * i by omega, xor_one_even]

theorem buddyIdx_right (i : Nat) : buddyIdx (2 * i + 2) = 2 * i + 1 := by
  unfold buddyIdx
  rw [show 2 * i + 2 - 1 = 2 * i + 1 by omega, xor_one_odd]

theorem parent_cases (j : Nat) (h : j ≠ 0) :
    j = 2 * parentIdx j + 1 ∨ j = 2 * parentIdx j + 2 := by
  unfold parentIdx; omega

theorem two_pow_bdepth_le (i : Nat) : 2 ^ bdepth i ≤ i + 1 := by
  unfold bdepth
  rw [log2c_eq, Nat.log2_eq_log_two]
  exact Nat.pow_log_le_self 2 (by omega)

theorem lt_two_pow_bdepth (i : Nat) : i + 1 < 2 ^ (bdepth i + 1) := by
  unfold bdepth
  rw [log2c_eq, Nat.log2_eq_log_two]
  exact Nat.lt_pow_succ_log_self (by norm_num) (i + 1)

theorem bdepth_le_of_lt_two_pow {i D : Nat} (h : i + 1 < 2 ^ (D + 1)) : bdepth i ≤ D := by
  by_contra hgt
  have h1 := two_pow_bdepth_le i
  have h2 : 2 ^ (D + 1) ≤ 2 ^ bdepth i := Nat.pow_le_pow_right (by omega) (by omega)
  omega

theorem bdepth_eq_of_range {i D : Nat} (h1 : 2 ^ D ≤ i + 1) (h2 : i + 1 < 2 ^ (D + 1)) :
    bdepth i = D := by
  have h3 := two_pow_bdepth_le i
  have h4 := lt_two_pow_bdepth i
  rcases Nat.lt_trichotomy (bdepth i) D with hlt | heq | hgt
  · have : 2 ^ (bdepth i + 1) ≤ 2 ^ D := Nat.pow_le_pow_right (by omega) (by omega)
    omega
  · exact heq
  · have : 2 ^ (D + 1) ≤ 2 ^ bdepth i := Nat.pow_le_pow_right (by omega) (by omega)
    omega

theorem boffset_spec (i : Nat) : i + 1 = 2 ^ bdepth i + boffset i := by
  have h1 := two_pow_bdepth_le i
  unfold boffset
  rw [Nat.shiftLeft_eq, one_mul]
  omega

theorem boffset_lt (i : Nat) : boffset i < 2 ^ bdepth i := by
  have h1 := boffset_spec i
  have h2 := lt_two_pow_bdepth i
  rw [pow_succ] at h2
  omega

theorem boffset_left (i : Nat) : boffset (2 * i + 1) = 2 * boffset i := by
  have h1 := boffset_spec (2 * i + 1)
  have h2 := boffset_spec i
  rw [bdepth_left, pow_succ] at h1
  omega

theorem boffset_right (i : Nat) : boffset (2 * i + 2) = 2 * boffset i + 1 := by
  have h1 := boffset_spec (2 * i + 2)
  have h2 := boffset_spec i
  rw [bdepth_right, pow_succ] at h1
  omega

theorem eq_of_bdepth_boffset {i j : Nat} (hd : bdepth i = bdepth j)
    (ho : boffset i = boffset j) : i = j := by
  have h1 := boffset_spec i
  have h2 := boffset_spec j
  rw [hd, ho] at h1
  omega

theorem bdepth_pos {j : Nat} (h : j ≠ 0) : 1 ≤ bdepth j := by
  rcases parent_cases j h with hc | hc
  · rw [hc, bdepth_left]; omega
  · rw [hc, bdepth_right]; omega

/-! ### The ancestor relation on block indices -/

/-- `AncOf j a` holds when block `a` is `j` itself or one of its superblocks,
i.e. `j` lies in the subtree rooted at `a`. The descendant endpoint `j` is a
parameter; derivations walk from `j`'s position down to... up the ancestor. -/
inductive AncOf (j : Nat) : Nat → Prop where
  | refl : AncOf j j
  | left {i : Nat} : AncOf j (2 * i + 1) → AncOf j i
  | right {i : Nat} : AncOf j (2 * i + 2) → AncOf j i

theorem AncOf.le {j a : Nat} (h : AncOf j a) : a ≤ j := by
  induction h with
  | refl => exact Nat.le_refl _
  | left _ ih => omega
  | right _ ih => omega

theorem AncOf.depth_le {j a : Nat} (h : AncOf j a) : bdepth a ≤ bdepth j := by
  induction h with
  | refl => exact Nat.le_refl _
  | left h ih => rw [bdepth_left] at ih; omega
  | right h ih => rw [bdepth_right] at ih; omega

theorem AncOf.trans {j a b : Nat} (hja : AncOf j a) (hab : AncOf a b) : AncOf j b := by
  induction hab with
  | refl => exact hja
  | left _ ih => exact .left ih
  | right _ ih => exact .right ih

theorem anc_child_left (i : Nat) : AncOf (2 * i + 1) i := .left .refl

theorem anc_child_right (i : Nat) : AncOf (2 * i + 2) i := .right .refl

theorem anc_parent {j : Nat} (h : j ≠ 0) : AncOf j (parentIdx j) := by
  rcases parent_cases j h with hc | hc
  · rw [hc, parentIdx_left]
    exact anc_child_left _
  · rw [hc, parentIdx_right]
    exact anc_child_right _

theorem anc_root (i : Nat) : AncOf i 0 := by
  induction i using Nat.strong_induction_on with
  | _ i ih =>
    rcases Nat.eq_zero_or_pos i with h0 | hpos
    · rw [h0]; exact .refl
    · have hp : parentIdx i < i := by unfold parentIdx; omega
      exact (anc_parent (by omega)).trans (ih _ hp)

theorem AncOf.antisymm {j a : Nat} (hja : AncOf j a) (haj : AncOf a j) : a = j :=
  Nat.le_antisymm hja.le haj.le

theorem AncOf.eq_of_depth_eq {j a : Nat} (h : AncOf j a) (hd : bdepth a = bdepth j) :
    a = j := by
  cases h with
  | refl => rfl
  | left h =>
    have := h.depth_le
    rw [bdepth_left] at this
    omega
  | right h =>
    have := h.depth_le
    rw [bdepth_right] at this
    omega

theorem anc_split {j a : Nat} (h : AncOf j a) (hne : a ≠ j) :
    AncOf j (2 * a + 1) ∨ AncOf j (2 * a + 2) := by
  cases h with
  | refl => exact absurd rfl hne
  | left h => exact Or.inl h
  | right h => exact Or.inr h

theorem anc_parent_of_strict {j a : Nat} (h : AncOf j a) :
    a ≠ j → AncOf (parentIdx j) a := by
  induction h with
  | refl => intro hne; exact absurd rfl hne
  | @left i h ih =>
    intro _
    by_cases hij : 2 * i + 1 = j
    · rw [← hij, parentIdx_left]
      exact .refl
    · exact .left (ih hij)
  | @right i h ih =>
    intro _
    by_cases hij : 2 * i + 2 = j
    · rw [← hij, parentIdx_right]
      exact .refl
    · exact .right (ih hij)

/-! ### Block intervals and disjointness -/

theorem aoff_left {D i : Nat} (h : bdepth i < D) : aoff D (2 * i + 1) = aoff D i := by
  unfold aoff
  rw [bdepth_left, boffset_left]
  rw [show D - bdepth i = (D - (bdepth i + 1)) + 1 by omega, pow_succ]
  ring

theorem aoff_right {D i : Nat} (h : bdepth i < D) :
    aoff D (2 * i + 2) = aoff D i + 2 ^ (D - (bdepth i + 1)) := by
  unfold aoff
  rw [bdepth_right, boffset_right]
  rw [show D - bdepth i = (D - (bdepth i + 1)) + 1 by omega, pow_succ]
  ring

theorem anc_interval {j a D : Nat} (h : AncOf j a) (hD : bdepth j ≤ D) :
    aoff D a ≤ aoff D j ∧
      aoff D j + 2 ^ (D - bdepth j) ≤ aoff D a + 2 ^ (D - bdepth a) := by
  induction h with
  | refl => omega
  | @left i h ih =>
    have hdi : bdepth i + 1 ≤ bdepth j := by
      have := h.depth_le
      rw [bdepth_left] at this
      exact this
    have hlt : bdepth i < D := by omega
    rcases ih with ⟨ih1, ih2⟩
    rw [aoff_left hlt] at ih1 ih2
    rw [bdepth_left] at ih2
    have hmono : (2 : Nat) ^ (D - (bdepth i + 1)) ≤ 2 ^ (D - bdepth i) :=
      Nat.pow_le_pow_right (by omega) (by omega)
    have hpos : 1 ≤ (2 : Nat) ^ (D - (bdepth i + 1)) := Nat.one_le_two_pow
    exact ⟨ih1, by omega⟩
  | @right i h ih =>
    have hdi : bdepth i + 1 ≤ bdepth j := by
      have := h.depth_le
      rw [bdepth_right] at this
      exact this
    have hlt : bdepth i < D := by omega
    rcases ih with ⟨ih1, ih2⟩
    rw [aoff_right hlt] at ih1 ih2
    rw [bdepth_right] at ih2
    have hsplit : (2 : Nat) ^ (D - bdepth i) =
        2 ^ (D - (bdepth i + 1)) + 2 ^ (D - (bdepth i + 1)) := by
      rw [show D - bdepth i = (D - (bdepth i + 1)) + 1 by omega, pow_succ]
      ring
    have hpos : 1 ≤ (2 : Nat) ^ (D - (bdepth i + 1)) := Nat.one_le_two_pow
    exact ⟨by omega, by omega⟩

theorem sibling_subtrees_disjoint {i k : Nat} (h1 : AncOf k (2 * i + 1))
    (h2 : AncOf k (2 * i + 2)) : False := by
  have hd1 : bdepth (2 * i + 1) ≤ bdepth k := h1.depth_le
  rw [bdepth_left] at hd1
  have hlt : bdepth i < bdepth k := by omega
  have hk1 := anc_interval h1 (Nat.le_refl (bdepth k))
  have hk2 := anc_interval h2 (Nat.le_refl (bdepth k))
  rw [aoff_left hlt, bdepth_left] at hk1
  rw [aoff_right hlt] at hk2
  have h0 : (2 : Nat) ^ (bdepth k - bdepth k) = 1 := by
    rw [Nat.sub_self]; rfl
  omega

theorem disjoint_of_not_anc_aux {i j D : Nat} (hij : ¬ AncOf j i) (hji : ¬ AncOf i j)
    (hiD : bdepth i ≤ D) (hjD : bdepth j ≤ D) {a : Nat} (hia : AncOf i a) :
    AncOf j a →
      aoff D i + 2 ^ (D - bdepth i) ≤ aoff D j ∨
        aoff D j + 2 ^ (D - bdepth j) ≤ aoff D i := by
  induction hia with
  | refl => intro hcontra; exact absurd hcontra hij
  | @left b h ih =>
    intro hjb
    by_cases hbj : j = b
    · subst hbj
      exact absurd (h.trans (anc_child_left j)) hji
    · rcases anc_split hjb (fun hc => hbj hc.symm) with hs | hs
      · exact ih hs
      · left
        have hdb : bdepth b + 1 ≤ bdepth j := by
          have := hs.depth_le
          rw [bdepth_right] at this
          exact this
        have hlt : bdepth b < D := by omega
        have hiv := anc_interval h (by omega : bdepth i ≤ D)
        rw [aoff_left hlt, bdepth_left] at hiv
        have hjv := anc_interval hs (by omega : bdepth j ≤ D)
        rw [aoff_right hlt] at hjv
        omega
  | @right b h ih =>
    intro hjb
    by_cases hbj : j = b
    · subst hbj
      exact absurd (h.trans (anc_child_right j)) hji
    · rcases anc_split hjb (fun hc => hbj hc.symm) with hs | hs
      · right
        have hdb : bdepth b + 1 ≤ bdepth j := by
          have := hs.depth_le
          rw [bdepth_left] at this
          exact this
        have hlt : bdepth b < D := by omega
        have hiv := anc_interval h (by omega : bdepth i ≤ D)
        rw [aoff_right hlt, bdepth_right] at hiv
        have hjv := anc_interval hs (by omega : bdepth j ≤ D)
        rw [aoff_left hlt, bdepth_left] at hjv
        omega
      · exact ih hs

/-- Two blocks neither of which contains the other occupy disjoint unit
intervals. -/
theorem disjoint_of_not_anc {i j D : Nat} (hij : ¬ AncOf j i) (hji : ¬ AncOf i j)
    (hiD : bdepth i ≤ D) (hjD : bdepth j ≤ D) :
    aoff D i + 2 ^ (D - bdepth i) ≤ aoff D j ∨
      aoff D j + 2 ^ (D - bdepth j) ≤ aoff D i :=
  disjoint_of_not_anc_aux hij hji hiD hjD (anc_root i) (anc_root j)

/-! ### Strict-ancestor lists -/

theorem mem_ancListAux {fuel j a : Nat} (hf : j ≤ fuel) :
    a ∈ ancListAux fuel j ↔ (AncOf j a ∧ a ≠ j) := by
  induction fuel generalizing j with
  | zero =>
    have hj : j = 0 := by omega
    subst hj
    simp only [ancListAux, List.not_mem_nil, false_iff]
    rintro ⟨hanc, hne⟩
    exact hne (by have := hanc.le; omega)
  | succ f ih =>
    by_cases h0 : j = 0
    · subst h0
      have hnil : ancListAux (f + 1) 0 = [] := by simp [ancListAux]
      rw [hnil]
      simp only [List.not_mem_nil, false_iff]
      rintro ⟨hanc, hne⟩
      exact hne (by have := hanc.le; omega)
    · have hp : parentIdx j < j := by unfold parentIdx; omega
      simp only [ancListAux, if_neg h0, List.mem_cons]
      rw [ih (by omega : parentIdx j ≤ f)]
      constructor
      · rintro (rfl | ⟨hanc, hne⟩)
        · exact ⟨anc_parent h0, by omega⟩
        · refine ⟨(anc_parent h0).trans hanc, ?_⟩
          have := hanc.le
          omega
      · rintro ⟨hanc, hne⟩
        by_cases hpa : a = parentIdx j
        · exact Or.inl hpa
        · exact Or.inr ⟨anc_parent_of_strict hanc hne, hpa⟩

theorem mem_strictAncestors {j a : Nat} :
    a ∈ strictAncestors j ↔ (AncOf j a ∧ a ≠ j) :=
  mem_ancListAux (Nat.le_refl j)

/-! ### Reading and writing block states -/

theorem blockCount_eq (t : Tree) : t.blockCount = 2 ^ (t.depth + 1) - 1 := by
  unfold Tree.blockCount
  rw [Nat.shiftLeft_eq, one_mul]

theorem bdepth_le_depth {t : Tree} {i : Nat} (h : i < t.blockCount) :
    bdepth i ≤ t.depth := by
  rw [blockCount_eq] at h
  have h1 : 1 ≤ 2 ^ (t.depth + 1) := Nat.one_le_two_pow
  exact bdepth_le_of_lt_two_pow (by omega)

theorem bitGet_set_self {l : List Bool} {n : Nat} (h : n < l.length) (b : Bool) :
    bitGet (l.set n b) n = b := by
  simp [bitGet, List.getD_eq_getElem?_getD, List.getElem?_set_self', h]

theorem bitGet_set_ne {l : List Bool} {n m : Nat} (h : n ≠ m) (b : Bool) :
    bitGet (l.set n b) m = bitGet l m := by
  simp [bitGet, List.getD_eq_getElem?_getD, List.getElem?_set_ne h]

theorem bitGet_replicate {k n : Nat} : bitGet (List.replicate k false) n = false := by
  unfold bitGet
  rcases Nat.lt_or_ge n k with h | h
  · simp [List.getD_eq_getElem?_getD, List.getElem?_replicate, h]
  · simp [List.getD_eq_getElem?_getD, List.getElem?_replicate, Nat.not_lt.mpr h]

theorem setState_internal_eq {t : Tree} {i : Nat} (s : BlockState) (hint : i < t.firstLeaf) :
    t.setState i s =
      { t with storage :=
          (t.storage.set (2 * i) (subdividedBit s)).set (2 * i + 1) (allocOrFullBit s) } := by
  unfold Tree.setState
  rw [if_pos hint]
  cases s <;> rfl

theorem setState_leaf_eq {t : Tree} {i : Nat} {s : BlockState} (hint : ¬ i < t.firstLeaf)
    (hs : s = .free ∨ s = .allocated) :
    t.setState i s =
      { t with storage :=
          t.storage.set (2 * t.firstLeaf + (i - t.firstLeaf)) (allocOrFullBit s) } := by
  unfold Tree.setState
  rw [if_neg hint]
  rcases hs with rfl | rfl <;> rfl

theorem setState_leaf_super {t : Tree} {i : Nat} {s : BlockState} (hint : ¬ i < t.firstLeaf)
    (hs : ¬ (s = .free ∨ s = .allocated)) : t.setState i s = t := by
  unfold Tree.setState
  rw [if_neg hint]
  cases s with
  | free => exact absurd (Or.inl rfl) hs
  | allocated => exact absurd (Or.inr rfl) hs
  | superblock => rfl
  | superblockFull => rfl

theorem setState_depth (t : Tree) (i : Nat) (s : BlockState) :
    (t.setState i s).depth = t.depth := by
  unfold Tree.setState
  by_cases h : i < t.firstLeaf <;> [rw [if_pos h]; rw [if_neg h]] <;> cases s <;> rfl

theorem setState_firstLeaf (t : Tree) (i : Nat) (s : BlockState) :
    (t.setState i s).firstLeaf = t.firstLeaf := by
  unfold Tree.setState
  by_cases h : i < t.firstLeaf <;> [rw [if_pos h]; rw [if_neg h]] <;> cases s <;> rfl

theorem setState_leafBlocks (t : Tree) (i : Nat) (s : BlockState) :
    (t.setState i s).leafBlocks = t.leafBlocks := by
  unfold Tree.setState
  by_cases h : i < t.firstLeaf <;> [rw [if_pos h]; rw [if_neg h]] <;> cases s <;> rfl

theorem setState_length (t : Tree) (i : Nat) (s : BlockState) :
    (t.setState i s).storage.length = t.storage.length := by
  unfold Tree.setState
  by_cases h : i < t.firstLeaf <;> [rw [if_pos h]; rw [if_neg h]] <;> cases s <;>
    simp [List.length_set]

theorem setState_blockCount (t : Tree) (i : Nat) (s : BlockState) :
    (t.setState i s).blockCount = t.blockCount := by
  unfold Tree.blockCount
  rw [setState_depth]

theorem setState_WF {t : Tree} (hWF : t.WF) (i : Nat) (s : BlockState) :
    (t.setState i s).WF := by
  obtain ⟨h1, h2⟩ := hWF
  exact ⟨by rw [setState_firstLeaf, setState_depth]; exact h1,
    by rw [setState_length, setState_depth]; exact h2⟩

theorem state_internal_cond {t : Tree} {i : Nat} (hint : i < t.firstLeaf) :
    t.state i =
      match bitGet t.storage (2 * i), bitGet t.storage (2 * i + 1) with
      | false, false => .free
      | false, true => .allocated
      | true, false => .superblock
      | true, true => .superblockFull := by
  unfold Tree.state
  rw [if_pos hint]

theorem state_leaf_cond {t : Tree} {i : Nat} (hint : ¬ i < t.firstLeaf) :
    t.state i =
      match bitGet t.storage (2 * t.firstLeaf + (i - t.firstLeaf)) with
      | false => .free
      | true => .allocated := by
  unfold Tree.state
  rw [if_neg hint]

theorem state_mk_internal (st : List Bool) (lb d fl i : Nat) (hint : i < fl) :
    (Tree.mk st lb d fl).state i =
      match bitGet st (2 * i), bitGet st (2 * i + 1) with
      | false, false => .free
      | false, true => .allocated
      | true, false => .superblock
      | true, true => .superblockFull := by
  simp only [Tree.state]
  rw [if_pos hint]

theorem state_mk_leaf (st : List Bool) (lb d fl i : Nat) (hint : ¬ i < fl) :
    (Tree.mk st lb d fl).state i =
      match bitGet st (2 * fl + (i - fl)) with
      | false => .free
      | true => .allocated := by
  simp only [Tree.state]
  rw [if_neg hint]

theorem state_leaf_free_or_alloc {t : Tree} {i : Nat} (hint : ¬ i < t.firstLeaf) :
    t.state i = .free ∨ t.state i = .allocated := by
  rw [state_leaf_cond hint]
  cases bitGet t.storage (2 * t.firstLeaf + (i - t.firstLeaf))
  · exact Or.inl rfl
  · exact Or.inr rfl

theorem decode_encode (s : BlockState) :
    (match subdividedBit s, allocOrFullBit s with
      | false, false => BlockState.free
      | false, true => BlockState.allocated
      | true, false => BlockState.superblock
      | true, true => BlockState.superblockFull) = s := by
  cases s <;> rfl

theorem state_new (n i : Nat) : (Tree.new n).state i = .free := by
  by_cases h : i < (Tree.new n).firstLeaf
  · rw [state_internal_cond h]
    show (match bitGet (List.replicate _ false) _, bitGet (List.replicate _ false) _ with
      | false, false => BlockState.free
      | false, true => BlockState.allocated
      | true, false => BlockState.superblock
      | true, true => BlockState.superblockFull) = _
    rw [bitGet_replicate, bitGet_replicate]
  · rw [state_leaf_cond h]
    show (match bitGet (List.replicate _ false) _ with
      | false => BlockState.free
      | true => BlockState.allocated) = _
    rw [bitGet_replicate]

theorem internal_bit_lt {t : Tree} (hWF : t.WF) {i : Nat} (h : i < t.firstLeaf) :
    2 * i + 1 < t.storage.length := by
  obtain ⟨h1, h2⟩ := hWF
  have h2D : 1 ≤ 2 ^ t.depth := Nat.one_le_two_pow
  omega

theorem leaf_bit_lt {t : Tree} (hWF : t.WF) {i : Nat} (h1 : ¬ i < t.firstLeaf)
    (h2 : i < t.blockCount) : 2 * t.firstLeaf + (i - t.firstLeaf) < t.storage.length := by
  obtain ⟨hf, hl⟩ := hWF
  rw [blockCount_eq] at h2
  have h2D : 1 ≤ 2 ^ t.depth := Nat.one_le_two_pow
  have hp : 2 ^ (t.depth + 1) = 2 * 2 ^ t.depth := by rw [pow_succ]; ring
  omega

theorem state_setState_self {t : Tree} (hWF : t.WF) {i : Nat} (hi : i < t.blockCount)
    {s : BlockState} (hs : ¬ i < t.firstLeaf → s = .free ∨ s = .allocated) :
    (t.setState i s).state i = s := by
  by_cases hint : i < t.firstLeaf
  · have hb2 : 2 * i + 1 < t.storage.length := internal_bit_lt hWF hint
    rw [setState_internal_eq s hint]
    rw [state_mk_internal _ _ _ _ _ hint]
    rw [bitGet_set_ne (by omega : (2 * i + 1 : Nat) ≠ 2 * i),
      bitGet_set_self (by omega) (subdividedBit s),
      bitGet_set_self (by simp [List.length_set]; omega) (allocOrFullBit s)]
    exact decode_encode s
  · have hb : 2 * t.firstLeaf + (i - t.firstLeaf) < t.storage.length :=
      leaf_bit_lt hWF hint hi
    rw [setState_leaf_eq hint (hs hint)]
    rw [state_mk_leaf _ _ _ _ _ hint]
    rw [bitGet_set_self hb (allocOrFullBit s)]
    rcases hs hint with rfl | rfl <;> rfl

theorem state_setState_ne {t : Tree} (hWF : t.WF) {i j : Nat} (hij : i ≠ j)
    (hj : j < t.blockCount) (s : BlockState) :
    (t.setState i s).state j = t.state j := by
  obtain ⟨hf, hl⟩ := hWF
  have h2D : 1 ≤ 2 ^ t.depth := Nat.one_le_two_pow
  rw [blockCount_eq] at hj
  have hp : 2 ^ (t.depth + 1) = 2 * 2 ^ t.depth := by rw [pow_succ]; ring
  by_cases hint : i < t.firstLeaf
  · rw [setState_internal_eq s hint]
    by_cases hjint : j < t.firstLeaf
    · rw [state_mk_internal _ _ _ _ _ hjint, state_internal_cond hjint]
      rw [bitGet_set_ne (by omega), bitGet_set_ne (by omega),
        bitGet_set_ne (by omega), bitGet_set_ne (by omega)]
    · rw [state_mk_leaf _ _ _ _ _ hjint, state_leaf_cond hjint]
      rw [bitGet_set_ne (by omega), bitGet_set_ne (by omega)]
  · by_cases hsa : s = .free ∨ s = .allocated
    · rw [setState_leaf_eq hint hsa]
      by_cases hjint : j < t.firstLeaf
      · rw [state_mk_internal _ _ _ _ _ hjint, state_internal_cond hjint]
        rw [bitGet_set_ne (by omega), bitGet_set_ne (by omega)]
      · rw [state_mk_leaf _ _ _ _ _ hjint, state_leaf_cond hjint]
        rw [bitGet_set_ne (by omega)]
    · rw [setState_leaf_super hint hsa]

/-! ### Soundness and completeness of the pre-order search -/

theorem preorderAux_sound {bc : Nat} {visit : Nat → Action}
    (hy : ∀ x v, visit x = .yield v → v = x) :
    ∀ {fuel i j : Nat}, preorderAux bc visit fuel i = some j →
      AncOf j i ∧ j < bc ∧ visit j = .yield j ∧
        ∀ a, AncOf j a → AncOf a i → a ≠ j → visit a = .descend := by
  intro fuel
  induction fuel with
  | zero => intro i j h; exact absurd h (by simp [preorderAux])
  | succ f ih =>
    intro i j h
    by_cases hbc : i < bc
    · rw [preorderAux, if_pos hbc] at h
      cases hv : visit i with
      | yield v =>
        rw [hv] at h
        have hvi : v = i := hy i v hv
        have hji : j = i := by
          cases h
          exact hvi
        subst hji
        subst hvi
        refine ⟨.refl, hbc, hv, ?_⟩
        intro a ha hai hne
        exact absurd (ha.antisymm hai) hne
      | skip => rw [hv] at h; exact absurd h (by simp)
      | descend =>
        rw [hv] at h
        cases hl : preorderAux bc visit f (leftChild i) with
        | some v =>
          rw [hl] at h
          have hvj : v = j := by cases h; rfl
          subst hvj
          obtain ⟨ha, hvbc, hyld, hanc⟩ := ih hl
          refine ⟨ha.trans (anc_child_left i), hvbc, hyld, ?_⟩
          intro a haj hai hne
          by_cases hia : a = i
          · rw [hia]; exact hv
          · rcases anc_split hai (fun hc => hia hc.symm) with hs | hs
            · exact hanc a haj hs hne
            · exact (sibling_subtrees_disjoint ha (haj.trans hs)).elim
        | none =>
          rw [hl] at h
          obtain ⟨ha, hvbc, hyld, hanc⟩ := ih h
          refine ⟨ha.trans (anc_child_right i), hvbc, hyld, ?_⟩
          intro a haj hai hne
          by_cases hia : a = i
          · rw [hia]; exact hv
          · rcases anc_split hai (fun hc => hia hc.symm) with hs | hs
            · exact (sibling_subtrees_disjoint (haj.trans hs) ha).elim
            · exact hanc a haj hs hne
    · rw [preorderAux, if_neg hbc] at h
      exact absurd h (by simp)

theorem preorderAux_complete {bc : Nat} {visit : Nat → Action} {j : Nat}
    (hj : j < bc) (hyj : visit j = .yield j) {i : Nat} (h : AncOf j i) :
    (∀ a, AncOf j a → AncOf a i → a ≠ j → visit a = .descend) →
    ∀ fuel, bdepth j + 1 ≤ bdepth i + fuel →
      (preorderAux bc visit fuel i).isSome := by
  induction h with
  | refl =>
    intro _ fuel hfuel
    have h1 : 1 ≤ fuel := by omega
    obtain ⟨f, rfl⟩ : ∃ f, fuel = f + 1 := ⟨fuel - 1, by omega⟩
    rw [preorderAux, if_pos hj, hyj]
    rfl
  | @left i h ih =>
    intro hanc fuel hfuel
    have hdj : bdepth (2 * i + 1) ≤ bdepth j := h.depth_le
    rw [bdepth_left] at hdj
    have hne : i ≠ j := by
      intro he
      subst he
      omega
    have hvi : visit i = .descend :=
      hanc i (h.trans (anc_child_left i)) .refl hne
    obtain ⟨f, rfl⟩ : ∃ f, fuel = f + 1 := ⟨fuel - 1, by omega⟩
    have hibc : i < bc := by
      have := (h.trans (anc_child_left i)).le
      omega
    rw [preorderAux, if_pos hibc, hvi]
    simp only [leftChild, rightChild]
    have hres := ih (fun a ha hai hne2 => hanc a ha (hai.trans (anc_child_left i)) hne2) f
      (by rw [bdepth_left]; omega)
    cases hl : preorderAux bc visit f (2 * i + 1) with
    | some v => rfl
    | none =>
      rw [hl] at hres
      exact absurd hres (by simp)
  | @right i h ih =>
    intro hanc fuel hfuel
    have hdj : bdepth (2 * i + 2) ≤ bdepth j := h.depth_le
    rw [bdepth_right] at hdj
    have hne : i ≠ j := by
      intro he
      subst he
      omega
    have hvi : visit i = .descend :=
      hanc i (h.trans (anc_child_right i)) .refl hne
    obtain ⟨f, rfl⟩ : ∃ f, fuel = f + 1 := ⟨fuel - 1, by omega⟩
    have hibc : i < bc := by
      have := (h.trans (anc_child_right i)).le
      omega
    rw [preorderAux, if_pos hibc, hvi]
    simp only [leftChild, rightChild]
    cases hl : preorderAux bc visit f (2 * i + 1) with
    | some v => rfl
    | none =>
      have hres := ih (fun a ha hai hne2 => hanc a ha (hai.trans (anc_child_right i)) hne2) f
        (by rw [bdepth_right]; omega)
      cases hr : preorderAux bc visit f (2 * i + 2) with
      | some v => rfl
      | none =>
        rw [hr] at hres
        exact absurd hres (by simp)

/-! ### The two visitors -/

theorem allocVisitor_yield_inv {t : Tree} {d i v : Nat}
    (h : allocVisitor t d i = .yield v) : v = i ∧ bdepth i = d ∧ t.state i = .free := by
  unfold allocVisitor at h
  by_cases hd : bdepth i = d
  · rw [if_pos hd] at h
    cases hs : t.state i <;> rw [hs] at h
    · cases h
      exact ⟨rfl, hd, rfl⟩
    · exact absurd h (by simp)
    · exact absurd h (by simp)
    · exact absurd h (by simp)
  · rw [if_neg hd] at h
    cases hs : t.state i <;> rw [hs] at h <;> exact absurd h (by simp)

theorem allocVisitor_hy (t : Tree) (d : Nat) :
    ∀ x v, allocVisitor t d x = .yield v → v = x :=
  fun _ _ h => (allocVisitor_yield_inv h).1

theorem allocVisitor_descend_inv {t : Tree} {d i : Nat}
    (h : allocVisitor t d i = .descend) :
    bdepth i ≠ d ∧ (t.state i = .free ∨ t.state i = .superblock) := by
  unfold allocVisitor at h
  by_cases hd : bdepth i = d
  · rw [if_pos hd] at h
    cases hs : t.state i <;> rw [hs] at h <;> exact absurd h (by simp)
  · rw [if_neg hd] at h
    refine ⟨hd, ?_⟩
    cases hs : t.state i <;> rw [hs] at h
    · exact Or.inl rfl
    · exact absurd h (by simp)
    · exact Or.inr rfl
    · exact absurd h (by simp)

theorem allocVisitor_descend_of {t : Tree} {d i : Nat} (hd : bdepth i ≠ d)
    (hs : t.state i = .free ∨ t.state i = .superblock) :
    allocVisitor t d i = .descend := by
  unfold allocVisitor
  rw [if_neg hd]
  rcases hs with hs | hs <;> rw [hs]

theorem allocVisitor_yield_of {t : Tree} {d i : Nat} (hd : bdepth i = d)
    (hs : t.state i = .free) : allocVisitor t d i = .yield i := by
  unfold allocVisitor
  rw [if_pos hd, hs]

theorem freeVisitor_yield_inv {t : Tree} {off i v : Nat}
    (h : freeVisitor t off i = .yield v) :
    v = i ∧ t.state i = .allocated ∧ boffset i <<< (t.depth - bdepth i) = off := by
  unfold freeVisitor at h
  cases hs : t.state i <;> rw [hs] at h
  · exact absurd h (by simp)
  · by_cases ho : boffset i <<< (t.depth - bdepth i) = off
    · rw [if_pos ho] at h
      cases h
      exact ⟨rfl, rfl, ho⟩
    · rw [if_neg ho] at h
      exact absurd h (by simp)
  · exact absurd h (by simp)
  · exact absurd h (by simp)

theorem freeVisitor_hy (t : Tree) (off : Nat) :
    ∀ x v, freeVisitor t off x = .yield v → v = x :=
  fun _ _ h => (freeVisitor_yield_inv h).1

theorem freeVisitor_descend_inv {t : Tree} {off i : Nat}
    (h : freeVisitor t off i = .descend) :
    t.state i = .superblock ∨ t.state i = .superblockFull := by
  unfold freeVisitor at h
  cases hs : t.state i <;> rw [hs] at h
  · exact absurd h (by simp)
  · by_cases ho : boffset i <<< (t.depth - bdepth i) = off
    · rw [if_pos ho] at h
      exact absurd h (by simp)
    · rw [if_neg ho] at h
      exact absurd h (by simp)
  · exact Or.inl rfl
  · exact Or.inr rfl

theorem freeVisitor_descend_of {t : Tree} {off i : Nat}
    (hs : t.state i = .superblock ∨ t.state i = .superblockFull) :
    freeVisitor t off i = .descend := by
  unfold freeVisitor
  rcases hs with hs | hs <;> rw [hs]

theorem freeVisitor_yield_of {t : Tree} {off i : Nat} (hs : t.state i = .allocated)
    (ho : boffset i <<< (t.depth - bdepth i) = off) :
    freeVisitor t off i = .yield i := by
  unfold freeVisitor
  rw [hs, if_pos ho]

/-! ### Minimality of the allocation search -/

theorem aoff_of_bdepth_eq {d x : Nat} (h : bdepth x = d) : aoff d x = boffset x := by
  unfold aoff
  rw [h, Nat.sub_self, pow_zero, mul_one]

theorem preorderAux_alloc_min {t : Tree} {d : Nat} :
    ∀ {fuel i j : Nat}, preorderAux t.blockCount (allocVisitor t d) fuel i = some j →
      d + 1 ≤ bdepth i + fuel →
      ∀ j', j' < t.blockCount → bdepth j' = d → t.state j' = .free →
        AncOf j' i →
        (∀ a, AncOf j' a → AncOf a i → a ≠ j' → allocVisitor t d a = .descend) →
        boffset j ≤ boffset j' := by
  intro fuel
  induction fuel with
  | zero =>
    intro i j h
    exact absurd h (by simp [preorderAux])
  | succ f ih =>
    intro i j h hfuel j' hj' hdj' hsj' hancj' hdesc
    by_cases hbc : i < t.blockCount
    · rw [preorderAux, if_pos hbc] at h
      cases hv : allocVisitor t d i with
      | yield v =>
        rw [hv] at h
        obtain ⟨hvi, hdi, hsi⟩ := allocVisitor_yield_inv hv
        have hji : j = v := by cases h; rfl
        rw [hji, hvi]
        have hj'e : i = j' := hancj'.eq_of_depth_eq (by omega)
        rw [hj'e]
      | skip => rw [hv] at h; exact absurd h (by simp)
      | descend =>
        rw [hv] at h
        simp only [leftChild, rightChild] at h
        obtain ⟨hdi, hsi⟩ := allocVisitor_descend_inv hv
        have hj'i : j' ≠ i := fun hc => hdi (by rw [← hc]; exact hdj')
        rcases anc_split hancj' (fun hc => hj'i hc.symm) with hs | hs
        · cases hl : preorderAux t.blockCount (allocVisitor t d) f (2 * i + 1) with
          | some v =>
            rw [hl] at h
            have hvj : v = j := by cases h; rfl
            subst hvj
            exact ih hl (by rw [bdepth_left]; omega)
              j' hj' hdj' hsj' hs
              (fun a ha hai hne => hdesc a ha (hai.trans (anc_child_left i)) hne)
          | none =>
            have hcomp := preorderAux_complete hj'
              (allocVisitor_yield_of hdj' hsj') hs
              (fun a ha hai hne => hdesc a ha (hai.trans (anc_child_left i)) hne) f
              (by rw [bdepth_left]; omega)
            rw [hl] at hcomp
            exact absurd hcomp (by simp)
        · have hd2 : bdepth (2 * i + 2) ≤ bdepth j' := hs.depth_le
          rw [bdepth_right] at hd2
          cases hl : preorderAux t.blockCount (allocVisitor t d) f (2 * i + 1) with
          | some v =>
            rw [hl] at h
            have hvj : v = j := by cases h; rfl
            subst hvj
            obtain ⟨haj, hjbc, hyj, _⟩ :=
              preorderAux_sound (allocVisitor_hy t d) hl
            obtain ⟨_, hdj, _⟩ := allocVisitor_yield_inv hyj
            have hiv1 := anc_interval haj (show bdepth v ≤ d from by rw [hdj])
            have hiv2 := anc_interval hs (show bdepth j' ≤ d by omega)
            have hlt : bdepth i < d := by
              have := haj.depth_le
              rw [bdepth_left] at this
              omega
            rw [aoff_left hlt, aoff_of_bdepth_eq hdj] at hiv1
            rw [aoff_right hlt, aoff_of_bdepth_eq hdj'] at hiv2
            rw [bdepth_left, hdj] at hiv1
            have h1pos : 1 ≤ (2 : Nat) ^ (d - d) := Nat.one_le_two_pow
            omega
          | none =>
            rw [hl] at h
            exact ih h (by rw [bdepth_right]; omega)
              j' hj' hdj' hsj' hs
              (fun a ha hai hne => hdesc a ha (hai.trans (anc_child_right i)) hne)
    · rw [preorderAux, if_neg hbc] at h
      exact absurd h (by simp)

/-! ### Characterisation of the two searches -/

theorem allocSearch_sound {t : Tree} {d B : Nat} (h : t.allocSearch d = some B) :
    B < t.blockCount ∧ bdepth B = d ∧ t.state B = .free ∧
      ∀ a, AncOf B a → a ≠ B → (t.state a = .free ∨ t.state a = .superblock) := by
  unfold Tree.allocSearch Tree.preorder at h
  obtain ⟨_, hbc, hyield, hdesc⟩ := preorderAux_sound (allocVisitor_hy t d) h
  obtain ⟨_, hd, hst⟩ := allocVisitor_yield_inv hyield
  refine ⟨hbc, hd, hst, ?_⟩
  intro a ha hne
  exact (allocVisitor_descend_inv (hdesc a ha (anc_root a) hne)).2

theorem strict_anc_depth_lt {j a : Nat} (ha : AncOf j a) (hne : a ≠ j) :
    bdepth a < bdepth j := by
  rcases Nat.lt_or_ge (bdepth a) (bdepth j) with hlt | hge
  · exact hlt
  · have := ha.depth_le
    exact absurd (ha.eq_of_depth_eq (by omega)) hne

theorem allocSearch_complete {t : Tree} {d j : Nat} (hrf : t.reachableFree d j) :
    (t.allocSearch d).isSome := by
  obtain ⟨hj, hd, hst, hanc⟩ := hrf
  show (preorderAux t.blockCount (allocVisitor t d) (t.depth + 2) 0).isSome
  apply preorderAux_complete hj (allocVisitor_yield_of hd hst) (anc_root j)
  · intro a ha _ hne
    obtain ⟨h1, h2⟩ := hanc a (mem_strictAncestors.mpr ⟨ha, hne⟩)
    have hda : bdepth a < bdepth j := strict_anc_depth_lt ha hne
    apply allocVisitor_descend_of (by omega)
    cases hstate : t.state a
    · exact Or.inl rfl
    · exact absurd hstate h1
    · exact Or.inr rfl
    · exact absurd hstate h2
  · rw [bdepth_zero]
    have := bdepth_le_depth hj
    omega

theorem allocSearch_min {t : Tree} {d B : Nat} (h : t.allocSearch d = some B) {j : Nat}
    (hrf : t.reachableFree d j) : boffset B ≤ boffset j := by
  obtain ⟨hj, hd, hst, hanc⟩ := hrf
  unfold Tree.allocSearch Tree.preorder at h
  apply preorderAux_alloc_min h
  · rw [bdepth_zero]
    have := bdepth_le_depth hj
    omega
  · exact hj
  · exact hd
  · exact hst
  · exact anc_root j
  · intro a ha _ hne
    obtain ⟨h1, h2⟩ := hanc a (mem_strictAncestors.mpr ⟨ha, hne⟩)
    have hda : bdepth a < bdepth j := strict_anc_depth_lt ha hne
    apply allocVisitor_descend_of (by omega)
    cases hstate : t.state a
    · exact Or.inl rfl
    · exact absurd hstate h1
    · exact Or.inr rfl
    · exact absurd hstate h2

theorem freeSearch_sound {t : Tree} {off B : Nat} (h : t.freeSearch off = some B) :
    B < t.blockCount ∧ t.state B = .allocated ∧
      boffset B <<< (t.depth - bdepth B) = off ∧
      ∀ a, AncOf B a → a ≠ B → (t.state a = .superblock ∨ t.state a = .superblockFull) := by
  unfold Tree.freeSearch Tree.preorder at h
  obtain ⟨_, hbc, hyield, hdesc⟩ := preorderAux_sound (freeVisitor_hy t off) h
  obtain ⟨_, hst, hoff⟩ := freeVisitor_yield_inv hyield
  exact ⟨hbc, hst, hoff,
    fun a ha hne => freeVisitor_descend_inv (hdesc a ha (anc_root a) hne)⟩

theorem freeSearch_complete {t : Tree} {off j : Nat} (hj : j < t.blockCount)
    (hst : t.state j = .allocated) (hoff : boffset j <<< (t.depth - bdepth j) = off)
    (hanc : ∀ a, AncOf j a → a ≠ j → (t.state a = .superblock ∨ t.state a = .superblockFull)) :
    (t.freeSearch off).isSome := by
  show (preorderAux t.blockCount (freeVisitor t off) (t.depth + 2) 0).isSome
  apply preorderAux_complete hj (freeVisitor_yield_of hst hoff) (anc_root j)
  · exact fun a ha _ hne => freeVisitor_descend_of (hanc a ha hne)
  · rw [bdepth_zero]
    have := bdepth_le_depth hj
    omega

/-! ### Facts about `combine` -/

theorem combine_free : combine .free .free = .free := rfl

theorem combine_super_left (x : BlockState) : combine .superblock x = .superblock := by
  cases x <;> rfl

theorem combine_super_right (x : BlockState) : combine x .superblock = .superblock := by
  cases x <;> rfl

theorem combine_full {l r : BlockState} (hl : l = .allocated ∨ l = .superblockFull)
    (hr : r = .allocated ∨ r = .superblockFull) : combine l r = .superblockFull := by
  rcases hl with rfl | rfl <;> rcases hr with rfl | rfl <;> rfl

theorem combine_full_nonfull {l r : BlockState} (hl : l = .allocated ∨ l = .superblockFull)
    (hr : r = .free ∨ r = .superblock) : combine l r = .superblock := by
  rcases hl with rfl | rfl <;> rcases hr with rfl | rfl <;> rfl

theorem combine_nonfull_full {l r : BlockState} (hl : l = .free ∨ l = .superblock)
    (hr : r = .allocated ∨ r = .superblockFull) : combine l r = .superblock := by
  rcases hl with rfl | rfl <;> rcases hr with rfl | rfl <;> rfl

theorem combine_free_nonfree {l r : BlockState} (hl : l = .free) (hr : r ≠ .free) :
    combine l r = .superblock := by
  subst hl
  cases r with
  | free => exact absurd rfl hr
  | allocated => rfl
  | superblock => rfl
  | superblockFull => rfl

theorem combine_nonfree_free {l r : BlockState} (hl : l ≠ .free) (hr : r = .free) :
    combine l r = .superblock := by
  subst hr
  cases l with
  | free => exact absurd rfl hl
  | allocated => rfl
  | superblock => rfl
  | superblockFull => rfl

theorem combine_eq_free {l r : BlockState} (h : combine l r = .free) :
    l = .free ∧ r = .free := by
  cases l <;> cases r <;> first
    | exact ⟨rfl, rfl⟩
    | exact absurd h (by simp [combine])

/-! ### Structure preservation and frame of the ancestor walks -/

theorem parent_internal {t : Tree} (hWF : t.WF) {j : Nat} (hj : j < t.blockCount)
    (h0 : j ≠ 0) : parentIdx j < t.firstLeaf := by
  obtain ⟨hf, _⟩ := hWF
  rw [blockCount_eq] at hj
  have h1 : 1 ≤ 2 ^ t.depth := Nat.one_le_two_pow
  have hp : 2 ^ (t.depth + 1) = 2 * 2 ^ t.depth := by rw [pow_succ]; ring
  unfold parentIdx
  omega

theorem buddy_lt {t : Tree} {j : Nat} (hj : j < t.blockCount) (h0 : j ≠ 0) :
    buddyIdx j < t.blockCount := by
  rw [blockCount_eq] at hj ⊢
  have h1 : 1 ≤ 2 ^ (t.depth + 1) := Nat.one_le_two_pow
  rcases parent_cases j h0 with hc | hc
  · rw [hc, buddyIdx_left]
    omega
  · rw [hc, buddyIdx_right]
    omega

theorem buddy_gt_parent {j : Nat} (h0 : j ≠ 0) : parentIdx j < buddyIdx j := by
  rcases parent_cases j h0 with hc | hc
  · conv => rhs; rw [hc, buddyIdx_left]
    omega
  · conv => rhs; rw [hc, buddyIdx_right]
    omega

theorem buddy_ne {j : Nat} (h0 : j ≠ 0) : buddyIdx j ≠ j := by
  rcases parent_cases j h0 with hc | hc
  · conv => lhs; rw [hc, buddyIdx_left]
    omega
  · conv => lhs; rw [hc, buddyIdx_right]
    omega

theorem children_of_parent {j : Nat} (h0 : j ≠ 0) :
    (j = 2 * parentIdx j + 1 ∧ buddyIdx j = 2 * parentIdx j + 2) ∨
      (j = 2 * parentIdx j + 2 ∧ buddyIdx j = 2 * parentIdx j + 1) := by
  rcases parent_cases j h0 with hc | hc
  · refine Or.inl ⟨hc, ?_⟩
    conv => lhs; rw [hc, buddyIdx_left]
  · refine Or.inr ⟨hc, ?_⟩
    conv => lhs; rw [hc, buddyIdx_right]

theorem markSuperAncestors_fields :
    ∀ {fuel : Nat} {t : Tree} {j : Nat},
      (markSuperAncestors t fuel j).depth = t.depth ∧
        (markSuperAncestors t fuel j).firstLeaf = t.firstLeaf ∧
        (markSuperAncestors t fuel j).leafBlocks = t.leafBlocks ∧
        (markSuperAncestors t fuel j).storage.length = t.storage.length := by
  intro fuel
  induction fuel with
  | zero => exact fun {t j} => ⟨rfl, rfl, rfl, rfl⟩
  | succ f ih =>
    intro t j
    rw [markSuperAncestors]
    by_cases h0 : j = 0
    · rw [if_pos h0]
      exact ⟨rfl, rfl, rfl, rfl⟩
    · rw [if_neg h0]
      obtain ⟨h1, h2, h3, h4⟩ := @ih (t.setState (parentIdx j) .superblock) (parentIdx j)
      exact ⟨by rw [h1, setState_depth], by rw [h2, setState_firstLeaf],
        by rw [h3, setState_leafBlocks], by rw [h4, setState_length]⟩

theorem markAllocAncestors_fields :
    ∀ {fuel : Nat} {t : Tree} {j : Nat},
      (markAllocAncestors t fuel j).depth = t.depth ∧
        (markAllocAncestors t fuel j).firstLeaf = t.firstLeaf ∧
        (markAllocAncestors t fuel j).leafBlocks = t.leafBlocks ∧
        (markAllocAncestors t fuel j).storage.length = t.storage.length := by
  intro fuel
  induction fuel with
  | zero => exact fun {t j} => ⟨rfl, rfl, rfl, rfl⟩
  | succ f ih =>
    intro t j
    rw [markAllocAncestors]
    by_cases h0 : j = 0
    · rw [if_pos h0]
      exact ⟨rfl, rfl, rfl, rfl⟩
    · rw [if_neg h0]
      cases t.state (buddyIdx j) with
      | free =>
        obtain ⟨h1, h2, h3, h4⟩ := @markSuperAncestors_fields f
          (t.setState (parentIdx j) .superblock) (parentIdx j)
        exact ⟨by rw [h1, setState_depth], by rw [h2, setState_firstLeaf],
          by rw [h3, setState_leafBlocks], by rw [h4, setState_length]⟩
      | allocated =>
        obtain ⟨h1, h2, h3, h4⟩ := @ih (t.setState (parentIdx j) .superblockFull) (parentIdx j)
        exact ⟨by rw [h1, setState_depth], by rw [h2, setState_firstLeaf],
          by rw [h3, setState_leafBlocks], by rw [h4, setState_length]⟩
      | superblock =>
        obtain ⟨h1, h2, h3, h4⟩ := @markSuperAncestors_fields f
          (t.setState (parentIdx j) .superblock) (parentIdx j)
        exact ⟨by rw [h1, setState_depth], by rw [h2, setState_firstLeaf],
          by rw [h3, setState_leafBlocks], by rw [h4, setState_length]⟩
      | superblockFull =>
        obtain ⟨h1, h2, h3, h4⟩ := @ih (t.setState (parentIdx j) .superblockFull) (parentIdx j)
        exact ⟨by rw [h1, setState_depth], by rw [h2, setState_firstLeaf],
          by rw [h3, setState_leafBlocks], by rw [h4, setState_length]⟩

theorem markFreeAncestors_fields :
    ∀ {fuel : Nat} {t : Tree} {j : Nat},
      (markFreeAncestors t fuel j).depth = t.depth ∧
        (markFreeAncestors t fuel j).firstLeaf = t.firstLeaf ∧
        (markFreeAncestors t fuel j).leafBlocks = t.leafBlocks ∧
        (markFreeAncestors t fuel j).storage.length = t.storage.length := by
  intro fuel
  induction fuel with
  | zero => exact fun {t j} => ⟨rfl, rfl, rfl, rfl⟩
  | succ f ih =>
    intro t j
    rw [markFreeAncestors]
    by_cases h0 : j = 0
    · rw [if_pos h0]
      exact ⟨rfl, rfl, rfl, rfl⟩
    · rw [if_neg h0]
      cases t.state (buddyIdx j) with
      | free =>
        obtain ⟨h1, h2, h3, h4⟩ := @ih (t.setState (parentIdx j) .free) (parentIdx j)
        exact ⟨by rw [h1, setState_depth], by rw [h2, setState_firstLeaf],
          by rw [h3, setState_leafBlocks], by rw [h4, setState_length]⟩
      | allocated =>
        obtain ⟨h1, h2, h3, h4⟩ := @markSuperAncestors_fields f
          (t.setState (parentIdx j) .superblock) (parentIdx j)
        exact ⟨by rw [h1, setState_depth], by rw [h2, setState_firstLeaf],
          by rw [h3, setState_leafBlocks], by rw [h4, setState_length]⟩
      | superblock =>
        obtain ⟨h1, h2, h3, h4⟩ := @markSuperAncestors_fields f
          (t.setState (parentIdx j) .superblock) (parentIdx j)
        exact ⟨by rw [h1, setState_depth], by rw [h2, setState_firstLeaf],
          by rw [h3, setState_leafBlocks], by rw [h4, setState_length]⟩
      | superblockFull =>
        obtain ⟨h1, h2, h3, h4⟩ := @markSuperAncestors_fields f
          (t.setState (parentIdx j) .superblock) (parentIdx j)
        exact ⟨by rw [h1, setState_depth], by rw [h2, setState_firstLeaf],
          by rw [h3, setState_leafBlocks], by rw [h4, setState_length]⟩

theorem markSuperAncestors_WF {t : Tree} (hWF : t.WF) (fuel j : Nat) :
    (markSuperAncestors t fuel j).WF := by
  obtain ⟨h1, h2⟩ := hWF
  obtain ⟨f1, f2, _, f4⟩ := @markSuperAncestors_fields fuel t j
  exact ⟨by rw [f2, f1]; exact h1, by rw [f4, f1]; exact h2⟩

theorem markAllocAncestors_WF {t : Tree} (hWF : t.WF) (fuel j : Nat) :
    (markAllocAncestors t fuel j).WF := by
  obtain ⟨h1, h2⟩ := hWF
  obtain ⟨f1, f2, _, f4⟩ := @markAllocAncestors_fields fuel t j
  exact ⟨by rw [f2, f1]; exact h1, by rw [f4, f1]; exact h2⟩

theorem markFreeAncestors_WF {t : Tree} (hWF : t.WF) (fuel j : Nat) :
    (markFreeAncestors t fuel j).WF := by
  obtain ⟨h1, h2⟩ := hWF
  obtain ⟨f1, f2, _, f4⟩ := @markFreeAncestors_fields fuel t j
  exact ⟨by rw [f2, f1]; exact h1, by rw [f4, f1]; exact h2⟩

theorem strict_anc_of_parent {j a : Nat} (h0 : j ≠ 0) (ha : AncOf (parentIdx j) a)
    (hne : a ≠ parentIdx j) : AncOf j a ∧ a ≠ j := by
  have hpj : parentIdx j < j := by unfold parentIdx; omega
  refine ⟨(anc_parent h0).trans ha, ?_⟩
  have := ha.le
  omega

theorem markSuperAncestors_frame {k : Nat} :
    ∀ {fuel : Nat} {t : Tree} {j : Nat}, t.WF → k < t.blockCount →
      ¬ (AncOf j k ∧ k ≠ j) → (markSuperAncestors t fuel j).state k = t.state k := by
  intro fuel
  induction fuel with
  | zero => intro t j _ _ _; rfl
  | succ f ih =>
    intro t j hWF hk hkna
    rw [markSuperAncestors]
    by_cases h0 : j = 0
    · rw [if_pos h0]
    · rw [if_neg h0]
      have hanc : AncOf j (parentIdx j) := anc_parent h0
      have hpj : parentIdx j < j := by unfold parentIdx; omega
      have hkp : k ≠ parentIdx j := fun hc => hkna ⟨hc ▸ hanc, by omega⟩
      have h1 := ih (setState_WF hWF (parentIdx j) .superblock)
        (by rw [setState_blockCount]; exact hk)
        (fun hc => hkna (strict_anc_of_parent h0 hc.1 hc.2))
      rw [h1]
      exact state_setState_ne hWF (fun hc => hkp hc.symm) hk _

theorem markAllocAncestors_frame {k : Nat} :
    ∀ {fuel : Nat} {t : Tree} {j : Nat}, t.WF → k < t.blockCount →
      ¬ (AncOf j k ∧ k ≠ j) → (markAllocAncestors t fuel j).state k = t.state k := by
  intro fuel
  induction fuel with
  | zero => intro t j _ _ _; rfl
  | succ f ih =>
    intro t j hWF hk hkna
    rw [markAllocAncestors]
    by_cases h0 : j = 0
    · rw [if_pos h0]
    · rw [if_neg h0]
      have hanc : AncOf j (parentIdx j) := anc_parent h0
      have hpj : parentIdx j < j := by unfold parentIdx; omega
      have hkp : k ≠ parentIdx j := fun hc => hkna ⟨hc ▸ hanc, by omega⟩
      have hsub : ¬ (AncOf (parentIdx j) k ∧ k ≠ parentIdx j) :=
        fun hc => hkna (strict_anc_of_parent h0 hc.1 hc.2)
      cases t.state (buddyIdx j) with
      | free =>
        rw [markSuperAncestors_frame (setState_WF hWF (parentIdx j) .superblock)
          (by rw [setState_blockCount]; exact hk) hsub]
        exact state_setState_ne hWF (fun hc => hkp hc.symm) hk _
      | allocated =>
        rw [ih (setState_WF hWF (parentIdx j) .superblockFull)
          (by rw [setState_blockCount]; exact hk) hsub]
        exact state_setState_ne hWF (fun hc => hkp hc.symm) hk _
      | superblock =>
        rw [markSuperAncestors_frame (setState_WF hWF (parentIdx j) .superblock)
          (by rw [setState_blockCount]; exact hk) hsub]
        exact state_setState_ne hWF (fun hc => hkp hc.symm) hk _
      | superblockFull =>
        rw [ih (setState_WF hWF (parentIdx j) .superblockFull)
          (by rw [setState_blockCount]; exact hk) hsub]
        exact state_setState_ne hWF (fun hc => hkp hc.symm) hk _

theorem markFreeAncestors_frame {k : Nat} :
    ∀ {fuel : Nat} {t : Tree} {j : Nat}, t.WF → k < t.blockCount →
      ¬ (AncOf j k ∧ k ≠ j) → (markFreeAncestors t fuel j).state k = t.state k := by
  intro fuel
  induction fuel with
  | zero => intro t j _ _ _; rfl
  | succ f ih =>
    intro t j hWF hk hkna
    rw [markFreeAncestors]
    by_cases h0 : j = 0
    · rw [if_pos h0]
    · rw [if_neg h0]
      have hanc : AncOf j (parentIdx j) := anc_parent h0
      have hpj : parentIdx j < j := by unfold parentIdx; omega
      have hkp : k ≠ parentIdx j := fun hc => hkna ⟨hc ▸ hanc, by omega⟩
      have hsub : ¬ (AncOf (parentIdx j) k ∧ k ≠ parentIdx j) :=
        fun hc => hkna (strict_anc_of_parent h0 hc.1 hc.2)
      cases t.state (buddyIdx j) with
      | free =>
        rw [ih (setState_WF hWF (parentIdx j) .free)
          (by rw [setState_blockCount]; exact hk) hsub]
        exact state_setState_ne hWF (fun hc => hkp hc.symm) hk _
      | allocated =>
        rw [markSuperAncestors_frame (setState_WF hWF (parentIdx j) .superblock)
          (by rw [setState_blockCount]; exact hk) hsub]
        exact state_setState_ne hWF (fun hc => hkp hc.symm) hk _
      | superblock =>
        rw [markSuperAncestors_frame (setState_WF hWF (parentIdx j) .superblock)
          (by rw [setState_blockCount]; exact hk) hsub]
        exact state_setState_ne hWF (fun hc => hkp hc.symm) hk _
      | superblockFull =>
        rw [markSuperAncestors_frame (setState_WF hWF (parentIdx j) .superblock)
          (by rw [setState_blockCount]; exact hk) hsub]
        exact state_setState_ne hWF (fun hc => hkp hc.symm) hk _

/-! ### What the ancestor walks write -/

theorem bdepth_eq_zero_iff {j : Nat} : bdepth j = 0 ↔ j = 0 := by
  constructor
  · intro h
    by_contra h0
    have := bdepth_pos h0
    omega
  · intro h
    rw [h]
    exact bdepth_zero

theorem bdepth_parent {j : Nat} (h0 : j ≠ 0) : bdepth (parentIdx j) + 1 = bdepth j := by
  rcases parent_cases j h0 with hc | hc
  · conv => rhs; rw [hc, bdepth_left]
  · conv => rhs; rw [hc, bdepth_right]

theorem child_lt_blockCount {t : Tree} (hWF : t.WF) {i : Nat} (hi : i < t.firstLeaf) :
    2 * i + 2 < t.blockCount := by
  obtain ⟨hf, _⟩ := hWF
  rw [blockCount_eq]
  have h1 : 1 ≤ 2 ^ t.depth := Nat.one_le_two_pow
  have hp : 2 ^ (t.depth + 1) = 2 * 2 ^ t.depth := by rw [pow_succ]; ring
  omega

theorem strict_anc_internal {t : Tree} (hWF : t.WF) {j a : Nat} (hj : j < t.blockCount)
    (ha : AncOf j a) (hne : a ≠ j) : a < t.firstLeaf := by
  obtain ⟨hf, _⟩ := hWF
  have hd : bdepth a < bdepth j := strict_anc_depth_lt ha hne
  have hdj : bdepth j ≤ t.depth := bdepth_le_depth hj
  have h1 : a + 1 < 2 ^ (bdepth a + 1) := lt_two_pow_bdepth a
  have h2 : 2 ^ (bdepth a + 1) ≤ 2 ^ t.depth := Nat.pow_le_pow_right (by omega) (by omega)
  omega

theorem markSuperAncestors_correct :
    ∀ {fuel : Nat} {t : Tree} {j : Nat}, t.WF → j < t.blockCount →
      t.state j = .superblock → bdepth j ≤ fuel →
      ∀ a, AncOf j a → a ≠ j → (markSuperAncestors t fuel j).state a = .superblock := by
  intro fuel
  induction fuel with
  | zero =>
    intro t j _ _ _ hfuel a ha hne
    have h0 : j = 0 := bdepth_eq_zero_iff.mp (by omega)
    subst h0
    have := ha.le
    omega
  | succ f ih =>
    intro t j hWF hj hsj hfuel a ha hne
    rw [markSuperAncestors]
    by_cases h0 : j = 0
    · subst h0
      have := ha.le
      omega
    · rw [if_neg h0]
      have hpj : parentIdx j < j := by unfold parentIdx; omega
      have hpint : parentIdx j < t.firstLeaf := parent_internal hWF hj h0
      have hpbc : parentIdx j < t.blockCount := by
        have hjle := hj
        omega
      have ht1WF : (t.setState (parentIdx j) .superblock).WF :=
        setState_WF hWF (parentIdx j) .superblock
      have ht1p : (t.setState (parentIdx j) .superblock).state (parentIdx j) = .superblock :=
        state_setState_self hWF hpbc (fun hc => absurd hpint hc)
      by_cases hap : a = parentIdx j
      · rw [hap]
        rw [markSuperAncestors_frame ht1WF (by rw [setState_blockCount]; exact hpbc)
          (fun hc => absurd hc.1.le (by omega))]
        exact ht1p
      · have hsa : AncOf (parentIdx j) a := anc_parent_of_strict ha hne
        exact ih ht1WF (by rw [setState_blockCount]; exact hpbc) ht1p
          (by have := bdepth_parent h0; omega) a hsa hap

theorem markAlloc_step_common {t : Tree} {j : Nat} (hWF : t.WF) (hj : j < t.blockCount)
    (h0 : j ≠ 0) :
    parentIdx j < j ∧ parentIdx j < t.firstLeaf ∧ parentIdx j < t.blockCount ∧
      buddyIdx j < t.blockCount ∧ parentIdx j < buddyIdx j ∧ buddyIdx j ≠ j := by
  have hpj : parentIdx j < j := by unfold parentIdx; omega
  exact ⟨hpj, parent_internal hWF hj h0, by omega, buddy_lt hj h0,
    buddy_gt_parent h0, buddy_ne h0⟩

theorem markAlloc_full_case {f : Nat}
    (ih : ∀ {t : Tree} {j : Nat}, t.WF → j < t.blockCount →
      (t.state j = .allocated ∨ t.state j = .superblockFull) → bdepth j ≤ f →
      ∀ a, AncOf j a → a ≠ j →
        ((markAllocAncestors t f j).state a = .superblock ∨
          (markAllocAncestors t f j).state a = .superblockFull) ∧
        (markAllocAncestors t f j).state a =
          combine ((markAllocAncestors t f j).state (2 * a + 1))
            ((markAllocAncestors t f j).state (2 * a + 2)))
    {t : Tree} {j : Nat} (hWF : t.WF) (hj : j < t.blockCount)
    (hsj : t.state j = .allocated ∨ t.state j = .superblockFull)
    (hfuel : bdepth j ≤ f + 1) (h0 : j ≠ 0)
    (hbs : t.state (buddyIdx j) = .allocated ∨ t.state (buddyIdx j) = .superblockFull)
    {a : Nat} (ha : AncOf j a) (hne : a ≠ j) :
    ((markAllocAncestors (t.setState (parentIdx j) .superblockFull) f (parentIdx j)).state a
        = .superblock ∨
      (markAllocAncestors (t.setState (parentIdx j) .superblockFull) f (parentIdx j)).state a
        = .superblockFull) ∧
    (markAllocAncestors (t.setState (parentIdx j) .superblockFull) f (parentIdx j)).state a =
      combine
        ((markAllocAncestors (t.setState (parentIdx j) .superblockFull) f
          (parentIdx j)).state (2 * a + 1))
        ((markAllocAncestors (t.setState (parentIdx j) .superblockFull) f
          (parentIdx j)).state (2 * a + 2)) := by
  obtain ⟨hpj, hpint, hpbc, hbbc, hbp, hbnj⟩ := markAlloc_step_common hWF hj h0
  have ht1WF : (t.setState (parentIdx j) .superblockFull).WF :=
    setState_WF hWF (parentIdx j) .superblockFull
  have hbc1 : (t.setState (parentIdx j) .superblockFull).blockCount = t.blockCount :=
    setState_blockCount t (parentIdx j) .superblockFull
  have ht1p : (t.setState (parentIdx j) .superblockFull).state (parentIdx j)
      = .superblockFull :=
    state_setState_self hWF hpbc (fun hc => absurd hpint hc)
  by_cases hap : a = parentIdx j
  · subst hap
    have hsp : (markAllocAncestors (t.setState (parentIdx j) .superblockFull) f
        (parentIdx j)).state (parentIdx j) = .superblockFull := by
      rw [markAllocAncestors_frame ht1WF (by rw [hbc1]; exact hpbc)
        (fun hc => hc.2 rfl)]
      exact ht1p
    have hsj2 : (markAllocAncestors (t.setState (parentIdx j) .superblockFull) f
        (parentIdx j)).state j = t.state j := by
      rw [markAllocAncestors_frame ht1WF (by rw [hbc1]; exact hj)
        (fun hc => absurd hc.1.le (by omega))]
      exact state_setState_ne hWF (by omega) hj _
    have hsb2 : (markAllocAncestors (t.setState (parentIdx j) .superblockFull) f
        (parentIdx j)).state (buddyIdx j) = t.state (buddyIdx j) := by
      rw [markAllocAncestors_frame ht1WF (by rw [hbc1]; exact hbbc)
        (fun hc => absurd hc.1.le (by omega))]
      exact state_setState_ne hWF (by omega) hbbc _
    refine ⟨Or.inr hsp, ?_⟩
    rcases children_of_parent h0 with ⟨hcj, hcb⟩ | ⟨hcj, hcb⟩
    · rw [hsp, ← hcj, ← hcb, hsj2, hsb2]
      exact (combine_full hsj hbs).symm
    · rw [hsp, ← hcj, ← hcb, hsj2, hsb2]
      exact (combine_full hbs hsj).symm
  · have hsa : AncOf (parentIdx j) a := anc_parent_of_strict ha hne
    exact ih ht1WF (by rw [hbc1]; exact hpbc) (Or.inr ht1p)
      (by have := bdepth_parent h0; omega) a hsa hap

theorem markAlloc_super_case {f : Nat} {t : Tree} {j : Nat} (hWF : t.WF)
    (hj : j < t.blockCount)
    (hsj : t.state j = .allocated ∨ t.state j = .superblockFull)
    (hfuel : bdepth j ≤ f + 1) (h0 : j ≠ 0)
    (hbs : t.state (buddyIdx j) = .free ∨ t.state (buddyIdx j) = .superblock)
    {a : Nat} (ha : AncOf j a) (hne : a ≠ j) :
    ((markSuperAncestors (t.setState (parentIdx j) .superblock) f (parentIdx j)).state a
        = .superblock ∨
      (markSuperAncestors (t.setState (parentIdx j) .superblock) f (parentIdx j)).state a
        = .superblockFull) ∧
    (markSuperAncestors (t.setState (parentIdx j) .superblock) f (parentIdx j)).state a =
      combine
        ((markSuperAncestors (t.setState (parentIdx j) .superblock) f
          (parentIdx j)).state (2 * a + 1))
        ((markSuperAncestors (t.setState (parentIdx j) .superblock) f
          (parentIdx j)).state (2 * a + 2)) := by
  obtain ⟨hpj, hpint, hpbc, hbbc, hbp, hbnj⟩ := markAlloc_step_common hWF hj h0
  have ht1WF : (t.setState (parentIdx j) .superblock).WF :=
    setState_WF hWF (parentIdx j) .superblock
  have hbc1 : (t.setState (parentIdx j) .superblock).blockCount = t.blockCount :=
    setState_blockCount t (parentIdx j) .superblock
  have ht1p : (t.setState (parentIdx j) .superblock).state (parentIdx j) = .superblock :=
    state_setState_self hWF hpbc (fun hc => absurd hpint hc)
  have hsp : (markSuperAncestors (t.setState (parentIdx j) .superblock) f
      (parentIdx j)).state (parentIdx j) = .superblock := by
    rw [markSuperAncestors_frame ht1WF (by rw [hbc1]; exact hpbc) (fun hc => hc.2 rfl)]
    exact ht1p
  by_cases hap : a = parentIdx j
  · subst hap
    have hsj2 : (markSuperAncestors (t.setState (parentIdx j) .superblock) f
        (parentIdx j)).state j = t.state j := by
      rw [markSuperAncestors_frame ht1WF (by rw [hbc1]; exact hj)
        (fun hc => absurd hc.1.le (by omega))]
      exact state_setState_ne hWF (by omega) hj _
    have hsb2 : (markSuperAncestors (t.setState (parentIdx j) .superblock) f
        (parentIdx j)).state (buddyIdx j) = t.state (buddyIdx j) := by
      rw [markSuperAncestors_frame ht1WF (by rw [hbc1]; exact hbbc)
        (fun hc => absurd hc.1.le (by omega))]
      exact state_setState_ne hWF (by omega) hbbc _
    refine ⟨Or.inl hsp, ?_⟩
    rcases children_of_parent h0 with ⟨hcj, hcb⟩ | ⟨hcj, hcb⟩
    · rw [hsp, ← hcj, ← hcb, hsj2, hsb2]
      exact (combine_full_nonfull hsj hbs).symm
    · rw [hsp, ← hcj, ← hcb, hsj2, hsb2]
      exact (combine_nonfull_full hbs hsj).symm
  · have hsa : AncOf (parentIdx j) a := anc_parent_of_strict ha hne
    have hfp : bdepth (parentIdx j) ≤ f := by
      have := bdepth_parent h0
      omega
    have hsuper_a : (markSuperAncestors (t.setState (parentIdx j) .superblock) f
        (parentIdx j)).state a = .superblock :=
      markSuperAncestors_correct ht1WF (by rw [hbc1]; exact hpbc) ht1p hfp a hsa hap
    refine ⟨Or.inl hsuper_a, ?_⟩
    rcases anc_split hsa hap with hc | hc
    · have hchild : (markSuperAncestors (t.setState (parentIdx j) .superblock) f
          (parentIdx j)).state (2 * a + 1) = .superblock := by
        by_cases hc2 : 2 * a + 1 = parentIdx j
        · rw [hc2]; exact hsp
        · exact markSuperAncestors_correct ht1WF (by rw [hbc1]; exact hpbc) ht1p hfp
            (2 * a + 1) hc hc2
      rw [hsuper_a, hchild, combine_super_left]
    · have hchild : (markSuperAncestors (t.setState (parentIdx j) .superblock) f
          (parentIdx j)).state (2 * a + 2) = .superblock := by
        by_cases hc2 : 2 * a + 2 = parentIdx j
        · rw [hc2]; exact hsp
        · exact markSuperAncestors_correct ht1WF (by rw [hbc1]; exact hpbc) ht1p hfp
            (2 * a + 2) hc hc2
      rw [hsuper_a, hchild, combine_super_right]

theorem markAllocAncestors_correct :
    ∀ {fuel : Nat} {t : Tree} {j : Nat}, t.WF → j < t.blockCount →
      (t.state j = .allocated ∨ t.state j = .superblockFull) → bdepth j ≤ fuel →
      ∀ a, AncOf j a → a ≠ j →
        ((markAllocAncestors t fuel j).state a = .superblock ∨
          (markAllocAncestors t fuel j).state a = .superblockFull) ∧
        (markAllocAncestors t fuel j).state a =
          combine ((markAllocAncestors t fuel j).state (2 * a + 1))
            ((markAllocAncestors t fuel j).state (2 * a + 2)) := by
  intro fuel
  induction fuel with
  | zero =>
    intro t j _ _ _ hfuel a ha hne
    have h0 : j = 0 := bdepth_eq_zero_iff.mp (by omega)
    subst h0
    have := ha.le
    omega
  | succ f ih =>
    intro t j hWF hj hsj hfuel a ha hne
    rw [markAllocAncestors]
    by_cases h0 : j = 0
    · subst h0
      have := ha.le
      omega
    · rw [if_neg h0]
      cases hbs : t.state (buddyIdx j) with
      | free => exact markAlloc_super_case hWF hj hsj hfuel h0 (Or.inl hbs) ha hne
      | allocated => exact markAlloc_full_case ih hWF hj hsj hfuel h0 (Or.inl hbs) ha hne
      | superblock => exact markAlloc_super_case hWF hj hsj hfuel h0 (Or.inr hbs) ha hne
      | superblockFull => exact markAlloc_full_case ih hWF hj hsj hfuel h0 (Or.inr hbs) ha hne

theorem markFree_free_case {f : Nat}
    (ih : ∀ {t : Tree} {j : Nat}, t.WF → j < t.blockCount →
      t.state j = .free → bdepth j ≤ f →
      ∀ a, AncOf j a → a ≠ j →
        ((markFreeAncestors t f j).state a = .free ∨
          (markFreeAncestors t f j).state a = .superblock) ∧
        (markFreeAncestors t f j).state a =
          combine ((markFreeAncestors t f j).state (2 * a + 1))
            ((markFreeAncestors t f j).state (2 * a + 2)))
    {t : Tree} {j : Nat} (hWF : t.WF) (hj : j < t.blockCount)
    (hsj : t.state j = .free) (hfuel : bdepth j ≤ f + 1) (h0 : j ≠ 0)
    (hbs : t.state (buddyIdx j) = .free) {a : Nat} (ha : AncOf j a) (hne : a ≠ j) :
    ((markFreeAncestors (t.setState (parentIdx j) .free) f (parentIdx j)).state a
        = .free ∨
      (markFreeAncestors (t.setState (parentIdx j) .free) f (parentIdx j)).state a
        = .superblock) ∧
    (markFreeAncestors (t.setState (parentIdx j) .free) f (parentIdx j)).state a =
      combine
        ((markFreeAncestors (t.setState (parentIdx j) .free) f
          (parentIdx j)).state (2 * a + 1))
        ((markFreeAncestors (t.setState (parentIdx j) .free) f
          (parentIdx j)).state (2 * a + 2)) := by
  obtain ⟨hpj, hpint, hpbc, hbbc, hbp, hbnj⟩ := markAlloc_step_common hWF hj h0
  have ht1WF : (t.setState (parentIdx j) .free).WF :=
    setState_WF hWF (parentIdx j) .free
  have hbc1 : (t.setState (parentIdx j) .free).blockCount = t.blockCount :=
    setState_blockCount t (parentIdx j) .free
  have ht1p : (t.setState (parentIdx j) .free).state (parentIdx j) = .free :=
    state_setState_self hWF hpbc (fun _ => Or.inl rfl)
  by_cases hap : a = parentIdx j
  · subst hap
    have hsp : (markFreeAncestors (t.setState (parentIdx j) .free) f
        (parentIdx j)).state (parentIdx j) = .free := by
      rw [markFreeAncestors_frame ht1WF (by rw [hbc1]; exact hpbc)
        (fun hc => hc.2 rfl)]
      exact ht1p
    have hsj2 : (markFreeAncestors (t.setState (parentIdx j) .free) f
        (parentIdx j)).state j = t.state j := by
      rw [markFreeAncestors_frame ht1WF (by rw [hbc1]; exact hj)
        (fun hc => absurd hc.1.le (by omega))]
      exact state_setState_ne hWF (by omega) hj _
    have hsb2 : (markFreeAncestors (t.setState (parentIdx j) .free) f
        (parentIdx j)).state (buddyIdx j) = t.state (buddyIdx j) := by
      rw [markFreeAncestors_frame ht1WF (by rw [hbc1]; exact hbbc)
        (fun hc => absurd hc.1.le (by omega))]
      exact state_setState_ne hWF (by omega) hbbc _
    refine ⟨Or.inl hsp, ?_⟩
    rcases children_of_parent h0 with ⟨hcj, hcb⟩ | ⟨hcj, hcb⟩
    · rw [hsp, ← hcj, ← hcb, hsj2, hsb2, hsj, hbs]
      exact combine_free.symm
    · rw [hsp, ← hcj, ← hcb, hsj2, hsb2, hsj, hbs]
      exact combine_free.symm
  · have hsa : AncOf (parentIdx j) a := anc_parent_of_strict ha hne
    exact ih ht1WF (by rw [hbc1]; exact hpbc) ht1p
      (by have := bdepth_parent h0; omega) a hsa hap

theorem markFree_super_case {f : Nat} {t : Tree} {j : Nat} (hWF : t.WF)
    (hj : j < t.blockCount) (hsj : t.state j = .free)
    (hfuel : bdepth j ≤ f + 1) (h0 : j ≠ 0)
    (hbs : t.state (buddyIdx j) ≠ .free) {a : Nat} (ha : AncOf j a) (hne : a ≠ j) :
    ((markSuperAncestors (t.setState (parentIdx j) .superblock) f (parentIdx j)).state a
        = .free ∨
      (markSuperAncestors (t.setState (parentIdx j) .superblock) f (parentIdx j)).state a
        = .superblock) ∧
    (markSuperAncestors (t.setState (parentIdx j) .superblock) f (parentIdx j)).state a =
      combine
        ((markSuperAncestors (t.setState (parentIdx j) .superblock) f
          (parentIdx j)).state (2 * a + 1))
        ((markSuperAncestors (t.setState (parentIdx j) .superblock) f
          (parentIdx j)).state (2 * a + 2)) := by
  obtain ⟨hpj, hpint, hpbc, hbbc, hbp, hbnj⟩ := markAlloc_step_common hWF hj h0
  have ht1WF : (t.setState (parentIdx j) .superblock).WF :=
    setState_WF hWF (parentIdx j) .superblock
  have hbc1 : (t.setState (parentIdx j) .superblock).blockCount = t.blockCount :=
    setState_blockCount t (parentIdx j) .superblock
  have ht1p : (t.setState (parentIdx j) .superblock).state (parentIdx j) = .superblock :=
    state_setState_self hWF hpbc (fun hc => absurd hpint hc)
  have hsp : (markSuperAncestors (t.setState (parentIdx j) .superblock) f
      (parentIdx j)).state (parentIdx j) = .superblock := by
    rw [markSuperAncestors_frame ht1WF (by rw [hbc1]; exact hpbc) (fun hc => hc.2 rfl)]
    exact ht1p
  by_cases hap : a = parentIdx j
  · subst hap
    have hsj2 : (markSuperAncestors (t.setState (parentIdx j) .superblock) f
        (parentIdx j)).state j = t.state j := by
      rw [markSuperAncestors_frame ht1WF (by rw [hbc1]; exact hj)
        (fun hc => absurd hc.1.le (by omega))]
      exact state_setState_ne hWF (by omega) hj _
    have hsb2 : (markSuperAncestors (t.setState (parentIdx j) .superblock) f
        (parentIdx j)).state (buddyIdx j) = t.state (buddyIdx j) := by
      rw [markSuperAncestors_frame ht1WF (by rw [hbc1]; exact hbbc)
        (fun hc => absurd hc.1.le (by omega))]
      exact state_setState_ne hWF (by omega) hbbc _
    refine ⟨Or.inr hsp, ?_⟩
    rcases children_of_parent h0 with ⟨hcj, hcb⟩ | ⟨hcj, hcb⟩
    · rw [hsp, ← hcj, ← hcb, hsj2, hsb2]
      exact (combine_free_nonfree hsj hbs).symm
    · rw [hsp, ← hcj, ← hcb, hsj2, hsb2]
      exact (combine_nonfree_free hbs hsj).symm
  · have hsa : AncOf (parentIdx j) a := anc_parent_of_strict ha hne
    have hfp : bdepth (parentIdx j) ≤ f := by
      have := bdepth_parent h0
      omega
    have hsuper_a : (markSuperAncestors (t.setState (parentIdx j) .superblock) f
        (parentIdx j)).state a = .superblock :=
      markSuperAncestors_correct ht1WF (by rw [hbc1]; exact hpbc) ht1p hfp a hsa hap
    refine ⟨Or.inr hsuper_a, ?_⟩
    rcases anc_split hsa hap with hc | hc
    · have hchild : (markSuperAncestors (t.setState (parentIdx j) .superblock) f
          (parentIdx j)).state (2 * a + 1) = .superblock := by
        by_cases hc2 : 2 * a + 1 = parentIdx j
        · rw [hc2]; exact hsp
        · exact markSuperAncestors_correct ht1WF (by rw [hbc1]; exact hpbc) ht1p hfp
            (2 * a + 1) hc hc2
      rw [hsuper_a, hchild, combine_super_left]
    · have hchild : (markSuperAncestors (t.setState (parentIdx j) .superblock) f
          (parentIdx j)).state (2 * a + 2) = .superblock := by
        by_cases hc2 : 2 * a + 2 = parentIdx j
        · rw [hc2]; exact hsp
        · exact markSuperAncestors_correct ht1WF (by rw [hbc1]; exact hpbc) ht1p hfp
            (2 * a + 2) hc hc2
      rw [hsuper_a, hchild, combine_super_right]

theorem markFreeAncestors_correct :
    ∀ {fuel : Nat} {t : Tree} {j : Nat}, t.WF → j < t.blockCount →
      t.state j = .free → bdepth j ≤ fuel →
      ∀ a, AncOf j a → a ≠ j →
        ((markFreeAncestors t fuel j).state a = .free ∨
          (markFreeAncestors t fuel j).state a = .superblock) ∧
        (markFreeAncestors t fuel j).state a =
          combine ((markFreeAncestors t fuel j).state (2 * a + 1))
            ((markFreeAncestors t fuel j).state (2 * a + 2)) := by
  intro fuel
  induction fuel with
  | zero =>
    intro t j _ _ _ hfuel a ha hne
    have h0 : j = 0 := bdepth_eq_zero_iff.mp (by omega)
    subst h0
    have := ha.le
    omega
  | succ f ih =>
    intro t j hWF hj hsj hfuel a ha hne
    rw [markFreeAncestors]
    by_cases h0 : j = 0
    · subst h0
      have := ha.le
      omega
    · rw [if_neg h0]
      cases hbs : t.state (buddyIdx j) with
      | free => exact markFree_free_case ih hWF hj hsj hfuel h0 hbs ha hne
      | allocated => exact markFree_super_case hWF hj hsj hfuel h0 (by rw [hbs]; simp) ha hne
      | superblock => exact markFree_super_case hWF hj hsj hfuel h0 (by rw [hbs]; simp) ha hne
      | superblockFull =>
        exact markFree_super_case hWF hj hsj hfuel h0 (by rw [hbs]; simp) ha hne

/-! ### Anatomy of `allocate` and `free` -/

theorem allocate_ok_anatomy {t : Tree} {size : Nat} {al : Allocation} {t' : Tree}
    (h : t.allocate size = some (.ok al, t')) :
    ∃ B, heightOf size ≤ t.depth ∧
      t.allocSearch (t.depth - heightOf size) = some B ∧
      al = ⟨boffset B <<< heightOf size, 1 <<< heightOf size⟩ ∧
      t' = markAllocAncestors (t.setState B .allocated)
        (t.setState B .allocated).depth B := by
  unfold Tree.allocate at h
  cases size with
  | zero => exact absurd h (by simp)
  | succ n =>
    by_cases hh : heightOf (n + 1) ≤ t.depth
    · rw [if_pos hh] at h
      cases hs : t.allocSearch (t.depth - heightOf (n + 1)) with
      | none => rw [hs] at h; exact absurd h (by simp)
      | some B =>
        rw [hs] at h
        simp only [Option.some.injEq, Prod.mk.injEq, Except.ok.injEq] at h
        exact ⟨B, hh, rfl, h.1.symm, h.2.symm⟩
    · rw [if_neg hh] at h
      exact absurd h (by simp)

theorem allocate_err_anatomy {t : Tree} {size : Nat} {e : OutOfMemoryError} {t' : Tree}
    (h : t.allocate size = some (.error e, t')) : t' = t := by
  unfold Tree.allocate at h
  cases size with
  | zero =>
    simp only [Option.some.injEq, Prod.mk.injEq] at h
    exact h.2.symm
  | succ n =>
    by_cases hh : heightOf (n + 1) ≤ t.depth
    · rw [if_pos hh] at h
      cases hs : t.allocSearch (t.depth - heightOf (n + 1)) with
      | none =>
        rw [hs] at h
        simp only [Option.some.injEq, Prod.mk.injEq] at h
        exact h.2.symm
      | some B =>
        rw [hs] at h
        simp only [Option.some.injEq, Prod.mk.injEq] at h
        exact absurd h.1 (by simp)
    · rw [if_neg hh] at h
      exact absurd h (by simp)

theorem free_ok_anatomy {t : Tree} {off : Nat} {t' : Tree}
    (h : t.free off = (.ok (), t')) :
    ∃ B, t.freeSearch off = some B ∧
      t' = markFreeAncestors (t.setState B .free) (t.setState B .free).depth B := by
  unfold Tree.free at h
  cases hs : t.freeSearch off with
  | none =>
    rw [hs] at h
    simp only [Prod.mk.injEq] at h
    exact absurd h.1 (by simp)
  | some B =>
    rw [hs] at h
    simp only [Prod.mk.injEq] at h
    exact ⟨B, rfl, h.2.symm⟩

theorem free_err_anatomy {t : Tree} {off : Nat} {e : DoubleFreeError} {t' : Tree}
    (h : t.free off = (.error e, t')) : t' = t ∧ t.freeSearch off = none := by
  unfold Tree.free at h
  cases hs : t.freeSearch off with
  | none =>
    rw [hs] at h
    simp only [Prod.mk.injEq] at h
    exact ⟨h.2.symm, rfl⟩
  | some B =>
    rw [hs] at h
    simp only [Prod.mk.injEq] at h
    exact absurd h.1 (by simp)

/-! ### Consequences of the invariant -/

theorem firstLeaf_lt_blockCount {t : Tree} (hWF : t.WF) : t.firstLeaf < t.blockCount := by
  obtain ⟨hf, _⟩ := hWF
  rw [blockCount_eq]
  have h1 : 1 ≤ 2 ^ t.depth := Nat.one_le_two_pow
  have hp : 2 ^ (t.depth + 1) = 2 * 2 ^ t.depth := by rw [pow_succ]; ring
  omega

theorem free_descendants {t : Tree} (hWF : t.WF) (hInv : Inv t) {j : Nat}
    (hj : j < t.blockCount) :
    ∀ {a : Nat}, AncOf j a → t.state a = .free → t.state j = .free := by
  intro a h
  induction h with
  | refl => exact fun h => h
  | @left i h ih =>
    intro hfree
    obtain ⟨hf, _⟩ := hWF
    have hji : 2 * i + 1 ≤ j := h.le
    have hint : i < t.firstLeaf := by
      rw [blockCount_eq] at hj
      have h1 : 1 ≤ 2 ^ t.depth := Nat.one_le_two_pow
      have hp : 2 ^ (t.depth + 1) = 2 * 2 ^ t.depth := by rw [pow_succ]; ring
      omega
    have hcomb := (hInv i hint).2 (by rw [hfree]; simp)
    rw [hfree] at hcomb
    obtain ⟨hc1, _⟩ := combine_eq_free hcomb.symm
    exact ih hc1
  | @right i h ih =>
    intro hfree
    obtain ⟨hf, _⟩ := hWF
    have hji : 2 * i + 2 ≤ j := h.le
    have hint : i < t.firstLeaf := by
      rw [blockCount_eq] at hj
      have h1 : 1 ≤ 2 ^ t.depth := Nat.one_le_two_pow
      have hp : 2 ^ (t.depth + 1) = 2 * 2 ^ t.depth := by rw [pow_succ]; ring
      omega
    have hcomb := (hInv i hint).2 (by rw [hfree]; simp)
    rw [hfree] at hcomb
    obtain ⟨_, hc2⟩ := combine_eq_free hcomb.symm
    exact ih hc2

theorem allocated_not_strict_anc {t : Tree} (hWF : t.WF) (hInv : Inv t) {i j : Nat}
    (hj : j < t.blockCount) (hsi : t.state i = .allocated)
    (hsj : t.state j = .allocated) (hanc : AncOf j i) : i = j := by
  by_contra hne
  rcases anc_split hanc hne with hs | hs
  · have hint : i < t.firstLeaf := strict_anc_internal hWF hj hanc hne
    have hch := (hInv i hint).1 hsi
    have := free_descendants hWF hInv hj hs hch.1
    rw [hsj] at this
    exact absurd this (by simp)
  · have hint : i < t.firstLeaf := strict_anc_internal hWF hj hanc hne
    have hch := (hInv i hint).1 hsi
    have := free_descendants hWF hInv hj hs hch.2
    rw [hsj] at this
    exact absurd this (by simp)

theorem unitOffset_eq_aoff (t : Tree) (i : Nat) : t.unitOffset i = aoff t.depth i := by
  unfold Tree.unitOffset aoff
  rw [Nat.shiftLeft_eq]

theorem allocated_disjoint {t : Tree} (hWF : t.WF) (hInv : Inv t) {i j : Nat}
    (hi : i < t.blockCount) (hj : j < t.blockCount) (hsi : t.state i = .allocated)
    (hsj : t.state j = .allocated) (hne : i ≠ j) :
    t.unitOffset i + t.unitSize i ≤ t.unitOffset j ∨
      t.unitOffset j + t.unitSize j ≤ t.unitOffset i := by
  have h1 : ¬ AncOf j i := fun hc => hne (allocated_not_strict_anc hWF hInv hj hsi hsj hc)
  have h2 : ¬ AncOf i j :=
    fun hc => hne ((allocated_not_strict_anc hWF hInv hi hsj hsi hc).symm)
  have hd := disjoint_of_not_anc h1 h2 (bdepth_le_depth hi) (bdepth_le_depth hj)
  rw [unitOffset_eq_aoff, unitOffset_eq_aoff]
  unfold Tree.unitSize
  rw [Nat.shiftLeft_eq, one_mul, Nat.shiftLeft_eq, one_mul]
  exact hd

theorem allocated_offset_inj {t : Tree} (hWF : t.WF) (hInv : Inv t) {i j : Nat}
    (hi : i < t.blockCount) (hj : j < t.blockCount) (hsi : t.state i = .allocated)
    (hsj : t.state j = .allocated) (hoff : t.unitOffset i = t.unitOffset j) : i = j := by
  by_contra hne
  have hs1 : 1 ≤ t.unitSize i := by
    unfold Tree.unitSize
    rw [Nat.shiftLeft_eq, one_mul]
    exact Nat.one_le_two_pow
  have hs2 : 1 ≤ t.unitSize j := by
    unfold Tree.unitSize
    rw [Nat.shiftLeft_eq, one_mul]
    exact Nat.one_le_two_pow
  rcases allocated_disjoint hWF hInv hi hj hsi hsj hne with hd | hd <;> omega

/-! ### The invariant is preserved by the two mutations -/

theorem anc_child_left_trans {B i : Nat} (h : AncOf B (2 * i + 1)) : AncOf B i :=
  h.trans (anc_child_left i)

theorem anc_child_right_trans {B i : Nat} (h : AncOf B (2 * i + 2)) : AncOf B i :=
  h.trans (anc_child_right i)

theorem alloc_transform {t : Tree} {B : Nat} (hWF : t.WF) (hInv : Inv t)
    (hB : B < t.blockCount) (hfree : t.state B = .free)
    (hanc : ∀ a, AncOf B a → a ≠ B → (t.state a = .free ∨ t.state a = .superblock)) :
    (markAllocAncestors (t.setState B .allocated) (t.setState B .allocated).depth B).WF ∧
    Inv (markAllocAncestors (t.setState B .allocated) (t.setState B .allocated).depth B) ∧
    (markAllocAncestors (t.setState B .allocated)
      (t.setState B .allocated).depth B).state B = .allocated ∧
    (∀ k, k < t.blockCount → ¬ AncOf B k →
      (markAllocAncestors (t.setState B .allocated)
        (t.setState B .allocated).depth B).state k = t.state k) ∧
    (∀ a, AncOf B a → a ≠ B →
      ((markAllocAncestors (t.setState B .allocated)
        (t.setState B .allocated).depth B).state a = .superblock ∨
       (markAllocAncestors (t.setState B .allocated)
        (t.setState B .allocated).depth B).state a = .superblockFull)) := by
  have ht1WF : (t.setState B .allocated).WF := setState_WF hWF B .allocated
  have hbc1 : (t.setState B .allocated).blockCount = t.blockCount :=
    setState_blockCount t B .allocated
  have ht1B : (t.setState B .allocated).state B = .allocated :=
    state_setState_self hWF hB (fun _ => Or.inr rfl)
  have hfuel : bdepth B ≤ (t.setState B .allocated).depth := by
    rw [setState_depth]
    exact bdepth_le_depth hB
  have hWF2 := markAllocAncestors_WF ht1WF (t.setState B .allocated).depth B
  have hcorrect := markAllocAncestors_correct ht1WF (by rw [hbc1]; exact hB)
    (Or.inl ht1B) hfuel
  have hstateB : (markAllocAncestors (t.setState B .allocated)
      (t.setState B .allocated).depth B).state B = .allocated := by
    rw [markAllocAncestors_frame ht1WF (by rw [hbc1]; exact hB) (fun hc => hc.2 rfl)]
    exact ht1B
  have hframe : ∀ k, k < t.blockCount → ¬ AncOf B k →
      (markAllocAncestors (t.setState B .allocated)
        (t.setState B .allocated).depth B).state k = t.state k := by
    intro k hk hcna
    rw [markAllocAncestors_frame ht1WF (by rw [hbc1]; exact hk) (fun hc => hcna hc.1)]
    exact state_setState_ne hWF (fun hc => hcna (by rw [hc]; exact AncOf.refl)) hk _
  refine ⟨hWF2, ?_, hstateB, hframe, fun a ha hne => (hcorrect a ha hne).1⟩
  intro i hint
  rw [show (markAllocAncestors (t.setState B .allocated)
      (t.setState B .allocated).depth B).firstLeaf = t.firstLeaf from
    (markAllocAncestors_fields).2.1.trans (setState_firstLeaf t B .allocated)] at hint
  have hibc : i < t.blockCount := by
    have := firstLeaf_lt_blockCount hWF
    omega
  have hlbc : 2 * i + 1 < t.blockCount := by
    have := child_lt_blockCount hWF hint
    omega
  have hrbc : 2 * i + 2 < t.blockCount := child_lt_blockCount hWF hint
  by_cases hiB : AncOf B i
  · by_cases hieq : i = B
    · subst hieq
      have hch := combine_eq_free (((hInv i hint).2 (by rw [hfree]; simp)).symm.trans
        (by rw [hfree]))
      constructor
      · intro _
        constructor
        · rw [hframe (2 * i + 1) hlbc
            (fun hc => by have := hc.le; omega)]
          exact hch.1
        · rw [hframe (2 * i + 2) hrbc
            (fun hc => by have := hc.le; omega)]
          exact hch.2
      · intro hcontra
        exact absurd hstateB hcontra
    · obtain ⟨hmem, hcomb⟩ := hcorrect i hiB hieq
      constructor
      · intro hc
        rcases hmem with hm | hm <;> rw [hc] at hm <;> exact absurd hm (by simp)
      · intro _
        exact hcomb
  · have hsi : (markAllocAncestors (t.setState B .allocated)
        (t.setState B .allocated).depth B).state i = t.state i := hframe i hibc hiB
    have hsl : (markAllocAncestors (t.setState B .allocated)
        (t.setState B .allocated).depth B).state (2 * i + 1) = t.state (2 * i + 1) :=
      hframe (2 * i + 1) hlbc (fun hc => hiB (anc_child_left_trans hc))
    have hsr : (markAllocAncestors (t.setState B .allocated)
        (t.setState B .allocated).depth B).state (2 * i + 2) = t.state (2 * i + 2) :=
      hframe (2 * i + 2) hrbc (fun hc => hiB (anc_child_right_trans hc))
    rw [InvAt, hsi, hsl, hsr]
    exact hInv i hint

theorem free_transform {t : Tree} {B : Nat} (hWF : t.WF) (hInv : Inv t)
    (hB : B < t.blockCount) (halloc : t.state B = .allocated)
    (hanc : ∀ a, AncOf B a → a ≠ B →
      (t.state a = .superblock ∨ t.state a = .superblockFull)) :
    (markFreeAncestors (t.setState B .free) (t.setState B .free).depth B).WF ∧
    Inv (markFreeAncestors (t.setState B .free) (t.setState B .free).depth B) ∧
    (markFreeAncestors (t.setState B .free)
      (t.setState B .free).depth B).state B = .free ∧
    (∀ k, k < t.blockCount → ¬ AncOf B k →
      (markFreeAncestors (t.setState B .free)
        (t.setState B .free).depth B).state k = t.state k) ∧
    (∀ a, AncOf B a → a ≠ B →
      ((markFreeAncestors (t.setState B .free)
        (t.setState B .free).depth B).state a = .free ∨
       (markFreeAncestors (t.setState B .free)
        (t.setState B .free).depth B).state a = .superblock)) := by
  have ht1WF : (t.setState B .free).WF := setState_WF hWF B .free
  have hbc1 : (t.setState B .free).blockCount = t.blockCount :=
    setState_blockCount t B .free
  have ht1B : (t.setState B .free).state B = .free :=
    state_setState_self hWF hB (fun _ => Or.inl rfl)
  have hfuel : bdepth B ≤ (t.setState B .free).depth := by
    rw [setState_depth]
    exact bdepth_le_depth hB
  have hWF2 := markFreeAncestors_WF ht1WF (t.setState B .free).depth B
  have hcorrect := markFreeAncestors_correct ht1WF (by rw [hbc1]; exact hB) ht1B hfuel
  have hstateB : (markFreeAncestors (t.setState B .free)
      (t.setState B .free).depth B).state B = .free := by
    rw [markFreeAncestors_frame ht1WF (by rw [hbc1]; exact hB) (fun hc => hc.2 rfl)]
    exact ht1B
  have hframe : ∀ k, k < t.blockCount → ¬ AncOf B k →
      (markFreeAncestors (t.setState B .free)
        (t.setState B .free).depth B).state k = t.state k := by
    intro k hk hcna
    rw [markFreeAncestors_frame ht1WF (by rw [hbc1]; exact hk) (fun hc => hcna hc.1)]
    exact state_setState_ne hWF (fun hc => hcna (by rw [hc]; exact AncOf.refl)) hk _
  refine ⟨hWF2, ?_, hstateB, hframe, fun a ha hne => (hcorrect a ha hne).1⟩
  intro i hint
  rw [show (markFreeAncestors (t.setState B .free)
      (t.setState B .free).depth B).firstLeaf = t.firstLeaf from
    (markFreeAncestors_fields).2.1.trans (setState_firstLeaf t B .free)] at hint
  have hibc : i < t.blockCount := by
    have := firstLeaf_lt_blockCount hWF
    omega
  have hlbc : 2 * i + 1 < t.blockCount := by
    have := child_lt_blockCount hWF hint
    omega
  have hrbc : 2 * i + 2 < t.blockCount := child_lt_blockCount hWF hint
  by_cases hiB : AncOf B i
  · by_cases hieq : i = B
    · subst hieq
      have hch := (hInv i hint).1 halloc
      constructor
      · intro hc
        rw [hstateB] at hc
        exact absurd hc (by simp)
      · intro _
        rw [hstateB]
        rw [hframe (2 * i + 1) hlbc
          (fun hc => by have := hc.le; omega),
          hframe (2 * i + 2) hrbc
          (fun hc => by have := hc.le; omega),
          hch.1, hch.2]
        exact combine_free.symm
    · obtain ⟨hmem, hcomb⟩ := hcorrect i hiB hieq
      constructor
      · intro hc
        rcases hmem with hm | hm <;> rw [hc] at hm <;> exact absurd hm (by simp)
      · intro _
        exact hcomb
  · have hsi := hframe i hibc hiB
    have hsl := hframe (2 * i + 1) hlbc (fun hc => hiB (anc_child_left_trans hc))
    have hsr := hframe (2 * i + 2) hrbc (fun hc => hiB (anc_child_right_trans hc))
    rw [InvAt, hsi, hsl, hsr]
    exact hInv i hint

/-! ### Fresh trees, and recovering the buffer from the states -/

theorem nextPow2_two_pow (n : Nat) : 2 ^ log2c (nextPow2 n) = nextPow2 n := by
  unfold nextPow2
  by_cases h : n ≤ 1
  · rw [if_pos h]
    rfl
  · rw [if_neg h, log2c_eq, Nat.log2_eq_log_two, Nat.log_pow (by norm_num)]

theorem WF_new (n : Nat) : (Tree.new n).WF := by
  have hdep : (Tree.new n).depth = log2c (nextPow2 n) := rfl
  have hfl : (Tree.new n).firstLeaf = (1 <<< log2c (nextPow2 n)) - 1 := rfl
  have hst : (Tree.new n).storage =
      List.replicate ((nextPow2 n - 1) * 2 + nextPow2 n * 1) false := rfl
  unfold Tree.WF
  constructor
  · rw [hfl, hdep, Nat.shiftLeft_eq, one_mul]
  · rw [hst, hdep, List.length_replicate]
    have h := nextPow2_two_pow n
    have h1 : 1 ≤ nextPow2 n := by
      unfold nextPow2
      by_cases hc : n ≤ 1
      · rw [if_pos hc]
      · rw [if_neg hc]
        exact Nat.one_le_two_pow
    omega

theorem Inv_new (n : Nat) : Inv (Tree.new n) := by
  intro i _
  constructor
  · intro hc
    rw [state_new] at hc
    exact absurd hc (by simp)
  · intro _
    rw [state_new, state_new, state_new]
    exact combine_free.symm

theorem bitGet_eq_getElem {l : List Bool} {n : Nat} (h : n < l.length) :
    bitGet l n = l[n] :=
  List.getD_eq_getElem l false h

theorem internal_decode_inj {b1 b2 b1' b2' : Bool}
    (h : (match b1, b2 with
      | false, false => BlockState.free
      | false, true => BlockState.allocated
      | true, false => BlockState.superblock
      | true, true => BlockState.superblockFull) =
      (match b1', b2' with
      | false, false => BlockState.free
      | false, true => BlockState.allocated
      | true, false => BlockState.superblock
      | true, true => BlockState.superblockFull)) : b1 = b1' ∧ b2 = b2' := by
  cases b1 <;> cases b2 <;> cases b1' <;> cases b2' <;> simp_all

theorem leaf_decode_inj {b b' : Bool}
    (h : (match b with
      | false => BlockState.free
      | true => BlockState.allocated) =
      (match b' with
      | false => BlockState.free
      | true => BlockState.allocated)) : b = b' := by
  cases b <;> cases b' <;> simp_all

theorem tree_eq_of_state_eq {t1 t2 : Tree} (hWF1 : t1.WF)
    (hd : t1.depth = t2.depth) (hf : t1.firstLeaf = t2.firstLeaf)
    (hl : t1.leafBlocks = t2.leafBlocks) (hlen : t1.storage.length = t2.storage.length)
    (hstates : ∀ j, j < t1.blockCount → t1.state j = t2.state j) : t1 = t2 := by
  have hstor : t1.storage = t2.storage := by
    apply List.ext_getElem hlen
    intro q h1 h2
    obtain ⟨hfl, hln⟩ := hWF1
    have h2D : 1 ≤ 2 ^ t1.depth := Nat.one_le_two_pow
    have hp : 2 ^ (t1.depth + 1) = 2 * 2 ^ t1.depth := by rw [pow_succ]; ring
    by_cases hq : q < 2 * t1.firstLeaf
    · have hint : q / 2 < t1.firstLeaf := by omega
      have hibc : q / 2 < t1.blockCount := by
        rw [blockCount_eq]
        omega
      have hseq := hstates (q / 2) hibc
      rw [state_internal_cond hint, state_internal_cond (hf ▸ hint)] at hseq
      obtain ⟨hb1, hb2⟩ := internal_decode_inj hseq
      by_cases hpar : q % 2 = 0
      · have hqe : 2 * (q / 2) = q := by omega
        rw [hqe] at hb1
        rw [← bitGet_eq_getElem h1, ← bitGet_eq_getElem h2]
        exact hb1
      · have hqe : 2 * (q / 2) + 1 = q := by omega
        rw [hqe] at hb2
        rw [← bitGet_eq_getElem h1, ← bitGet_eq_getElem h2]
        exact hb2
    · have hile : ¬ (q - t1.firstLeaf < t1.firstLeaf) := by
        rw [hln] at h1
        omega
      have hibc : q - t1.firstLeaf < t1.blockCount := by
        rw [blockCount_eq]
        rw [hln] at h1
        omega
      have hseq := hstates (q - t1.firstLeaf) hibc
      rw [state_leaf_cond hile, state_leaf_cond (by rw [← hf]; exact hile)] at hseq
      rw [← hf] at hseq
      have hqe : 2 * t1.firstLeaf + (q - t1.firstLeaf - t1.firstLeaf) = q := by
        rw [hln] at h1
        omega
      rw [hqe] at hseq
      have hbit := leaf_decode_inj hseq
      rw [← bitGet_eq_getElem h1, ← bitGet_eq_getElem h2]
      exact hbit
  cases t1
  cases t2
  simp_all

/-! ### The bookkeeping invariant is preserved -/

theorem unitOffset_congr {t t' : Tree} (h : t'.depth = t.depth) (j : Nat) :
    t'.unitOffset j = t.unitOffset j := by
  unfold Tree.unitOffset
  rw [h]

theorem unitSize_congr {t t' : Tree} (h : t'.depth = t.depth) (j : Nat) :
    t'.unitSize j = t.unitSize j := by
  unfold Tree.unitSize
  rw [h]

theorem liveSpec_def (t : Tree) (p : Nat × Nat) :
    t.liveSpec p ↔ ∃ j, j < t.blockCount ∧ t.state j = .allocated ∧
      t.unitOffset j = p.1 ∧ t.unitSize j = p.2 := Iff.rfl

theorem good_alloc {t : Tree} {live : List (Nat × Nat)} {size : Nat} {al : Allocation}
    {t' : Tree} (hG : Good t live) (h : t.allocate size = some (.ok al, t')) :
    Good t' ((al.offset, al.size) :: live) := by
  obtain ⟨hWF, hInv, hiff, hnd⟩ := hG
  obtain ⟨B, hh, hsearch, hal, ht'⟩ := allocate_ok_anatomy h
  obtain ⟨hB, hdB, hfree, hanc⟩ := allocSearch_sound hsearch
  obtain ⟨hWF', hInv', hstB, hframe, hancpost⟩ := alloc_transform hWF hInv hB hfree hanc
  rw [← ht'] at hWF' hInv' hstB hframe hancpost
  have hdepth : t'.depth = t.depth := by
    rw [ht']
    exact (markAllocAncestors_fields).1.trans (setState_depth t B .allocated)
  have hbc : t'.blockCount = t.blockCount := by
    unfold Tree.blockCount
    rw [hdepth]
  have hoffB : al.offset = t.unitOffset B := by
    rw [hal]
    show boffset B <<< heightOf size = t.unitOffset B
    unfold Tree.unitOffset
    rw [hdB]
    congr 1
    omega
  have hsizeB : al.size = t.unitSize B := by
    rw [hal]
    show (1 : Nat) <<< heightOf size = t.unitSize B
    unfold Tree.unitSize
    rw [hdB]
    congr 1
    omega
  have hnanc_of_alloc : ∀ j, t.state j = .allocated → ¬ AncOf B j := by
    intro j hsj hc
    by_cases hje : j = B
    · rw [hje, hfree] at hsj
      exact absurd hsj (by simp)
    · rcases hanc j hc hje with h1 | h1 <;> rw [h1] at hsj <;> exact absurd hsj (by simp)
  refine ⟨hWF', hInv', ?_, ?_⟩
  · intro p
    rw [List.mem_cons, hiff p, liveSpec_def, liveSpec_def]
    constructor
    · rintro (rfl | ⟨j, hj, hsj, ho, hs⟩)
      · exact ⟨B, by rw [hbc]; exact hB, hstB,
          by rw [unitOffset_congr hdepth]; exact hoffB.symm,
          by rw [unitSize_congr hdepth]; exact hsizeB.symm⟩
      · have hjB : ¬ AncOf B j := hnanc_of_alloc j hsj
        exact ⟨j, by rw [hbc]; exact hj, by rw [hframe j hj hjB]; exact hsj,
          by rw [unitOffset_congr hdepth]; exact ho,
          by rw [unitSize_congr hdepth]; exact hs⟩
    · rintro ⟨j, hj, hsj, ho, hs⟩
      rw [hbc] at hj
      by_cases hje : j = B
      · subst hje
        left
        have h1 : p.1 = al.offset := by
          rw [← ho, unitOffset_congr hdepth, hoffB]
        have h2 : p.2 = al.size := by
          rw [← hs, unitSize_congr hdepth, hsizeB]
        rw [Prod.ext_iff]
        exact ⟨h1, h2⟩
      · right
        have hnanc : ¬ AncOf B j := by
          intro hc
          rcases hancpost j hc hje with h1 | h1 <;> rw [h1] at hsj <;>
            exact absurd hsj (by simp)
        exact ⟨j, hj, by rw [← hframe j hj hnanc]; exact hsj,
          by rw [← unitOffset_congr hdepth]; exact ho,
          by rw [← unitSize_congr hdepth]; exact hs⟩
  · rw [List.map_cons, List.nodup_cons]
    refine ⟨?_, hnd⟩
    intro hmem
    obtain ⟨p, hp, hp1⟩ := List.mem_map.mp hmem
    obtain ⟨j, hj, hsj, ho, _⟩ := (hiff p).mp hp
    have hjB : j ≠ B := by
      intro hc
      rw [hc, hfree] at hsj
      exact absurd hsj (by simp)
    have hnanc : ¬ AncOf B j := hnanc_of_alloc j hsj
    have hsj' : t'.state j = .allocated := by
      rw [hframe j hj hnanc]
      exact hsj
    apply hjB
    apply allocated_offset_inj hWF' hInv' (by rw [hbc]; exact hj) (by rw [hbc]; exact hB)
      hsj' hstB
    rw [unitOffset_congr hdepth, unitOffset_congr hdepth, ho, hp1, hoffB]

theorem good_free {t : Tree} {live : List (Nat × Nat)} {off : Nat} {t' : Tree}
    (hG : Good t live) (h : t.free off = (.ok (), t')) :
    Good t' (live.filter (fun p => p.1 != off)) := by
  obtain ⟨hWF, hInv, hiff, hnd⟩ := hG
  obtain ⟨B, hsearch, ht'⟩ := free_ok_anatomy h
  obtain ⟨hB, halloc, hoffB, hanc⟩ := freeSearch_sound hsearch
  obtain ⟨hWF', hInv', hstB, hframe, hancpost⟩ := free_transform hWF hInv hB halloc hanc
  rw [← ht'] at hWF' hInv' hstB hframe hancpost
  have hdepth : t'.depth = t.depth := by
    rw [ht']
    exact (markFreeAncestors_fields).1.trans (setState_depth t B .free)
  have hbc : t'.blockCount = t.blockCount := by
    unfold Tree.blockCount
    rw [hdepth]
  have hoffB2 : t.unitOffset B = off := hoffB
  refine ⟨hWF', hInv', ?_, ?_⟩
  · intro p
    rw [List.mem_filter, hiff p, liveSpec_def, liveSpec_def]
    constructor
    · rintro ⟨⟨j, hj, hsj, ho, hs⟩, hne⟩
      have hneoff : p.1 ≠ off := by simpa using hne
      have hjB : j ≠ B := by
        intro hc
        subst hc
        exact hneoff (by rw [← ho]; exact hoffB2)
      have hnanc : ¬ AncOf B j := by
        intro hc
        rcases hanc j hc hjB with h1 | h1 <;> rw [h1] at hsj <;> exact absurd hsj (by simp)
      exact ⟨j, by rw [hbc]; exact hj, by rw [hframe j hj hnanc]; exact hsj,
        by rw [unitOffset_congr hdepth]; exact ho,
        by rw [unitSize_congr hdepth]; exact hs⟩
    · rintro ⟨j, hj, hsj, ho, hs⟩
      rw [hbc] at hj
      have hjB : j ≠ B := by
        intro hc
        rw [hc, hstB] at hsj
        exact absurd hsj (by simp)
      have hnanc : ¬ AncOf B j := by
        intro hc
        rcases hancpost j hc hjB with h1 | h1 <;> rw [h1] at hsj <;>
          exact absurd hsj (by simp)
      have hsjt : t.state j = .allocated := by
        rw [← hframe j hj hnanc]
        exact hsj
      refine ⟨⟨j, hj, hsjt, by rw [← unitOffset_congr hdepth]; exact ho,
        by rw [← unitSize_congr hdepth]; exact hs⟩, ?_⟩
      simp only [bne_iff_ne, ne_eq]
      intro hc
      apply hjB
      apply allocated_offset_inj hWF hInv hj hB hsjt halloc
      rw [← unitOffset_congr hdepth, ho, hc, ← hoffB2]
  · exact hnd.sublist (List.Sublist.map _ (List.filter_sublist _))

theorem reach_good {t : Tree} {live : List (Nat × Nat)} (h : Reach t live) :
    Good t live := by
  induction h with
  | init hn =>
    refine ⟨WF_new _, Inv_new _, ?_, List.nodup_nil⟩
    intro p
    simp only [List.not_mem_nil, false_iff, liveSpec_def]
    rintro ⟨j, _, hsj, _⟩
    rw [state_new] at hsj
    exact absurd hsj (by simp)
  | allocOk _ hstep ih => exact good_alloc ih hstep
  | allocErr _ hstep ih =>
    rw [allocate_err_anatomy hstep]
    exact ih
  | freeOk _ hstep ih => exact good_free ih hstep
  | freeErr _ hstep ih =>
    rw [(free_err_anatomy hstep).1]
    exact ih

/-! ### `allocate` followed by `free` restores the tree exactly -/

theorem alloc_free_restore {t : Tree} {size : Nat} {al : Allocation} {t' : Tree}
    (hWF : t.WF) (hInv : Inv t) (h : t.allocate size = some (.ok al, t')) :
    t'.free al.offset = (.ok (), t) := by
  obtain ⟨B, hh, hsearch, hal, ht'⟩ := allocate_ok_anatomy h
  obtain ⟨hB, hdB, hfree, hanc⟩ := allocSearch_sound hsearch
  obtain ⟨hWF', hInv', hstB, hframe, hancpost⟩ := alloc_transform hWF hInv hB hfree hanc
  rw [← ht'] at hWF' hInv' hstB hframe hancpost
  have hdepth : t'.depth = t.depth := by
    rw [ht']
    exact (markAllocAncestors_fields).1.trans (setState_depth t B .allocated)
  have hfl : t'.firstLeaf = t.firstLeaf := by
    rw [ht']
    exact (markAllocAncestors_fields).2.1.trans (setState_firstLeaf t B .allocated)
  have hlb : t'.leafBlocks = t.leafBlocks := by
    rw [ht']
    exact (markAllocAncestors_fields).2.2.1.trans (setState_leafBlocks t B .allocated)
  have hlen : t'.storage.length = t.storage.length := by
    rw [ht']
    exact (markAllocAncestors_fields).2.2.2.trans (setState_length t B .allocated)
  have hbc : t'.blockCount = t.blockCount := by
    unfold Tree.blockCount
    rw [hdepth]
  have hBbc' : B < t'.blockCount := by
    rw [hbc]
    exact hB
  have hoffB : boffset B <<< (t'.depth - bdepth B) = al.offset := by
    rw [hal]
    show boffset B <<< (t'.depth - bdepth B) = boffset B <<< heightOf size
    rw [hdepth, hdB]
    congr 1
    omega
  have hcomp : (t'.freeSearch al.offset).isSome :=
    freeSearch_complete hBbc' hstB hoffB hancpost
  obtain ⟨C, hC⟩ := Option.isSome_iff_exists.mp hcomp
  obtain ⟨hCbc, hCalloc, hCoff, _⟩ := freeSearch_sound hC
  have hCB : C = B := by
    apply allocated_offset_inj hWF' hInv' hCbc hBbc' hCalloc hstB
    show boffset C <<< (t'.depth - bdepth C) = boffset B <<< (t'.depth - bdepth B)
    rw [hCoff, hoffB]
  rw [hCB] at hC
  obtain ⟨hWF2, hInv2, hstB2, hframe2, hancpost2⟩ :=
    free_transform hWF' hInv' hBbc' hstB hancpost
  have hdepth2 : (markFreeAncestors (t'.setState B .free)
      (t'.setState B .free).depth B).depth = t.depth := by
    rw [(markFreeAncestors_fields).1, setState_depth]
    exact hdepth
  have hfl2 : (markFreeAncestors (t'.setState B .free)
      (t'.setState B .free).depth B).firstLeaf = t.firstLeaf := by
    rw [(markFreeAncestors_fields).2.1, setState_firstLeaf]
    exact hfl
  have hlb2 : (markFreeAncestors (t'.setState B .free)
      (t'.setState B .free).depth B).leafBlocks = t.leafBlocks := by
    rw [(markFreeAncestors_fields).2.2.1, setState_leafBlocks]
    exact hlb
  have hlen2 : (markFreeAncestors (t'.setState B .free)
      (t'.setState B .free).depth B).storage.length = t.storage.length := by
    rw [(markFreeAncestors_fields).2.2.2, setState_length]
    exact hlen
  have hbc2 : (markFreeAncestors (t'.setState B .free)
      (t'.setState B .free).depth B).blockCount = t.blockCount := by
    unfold Tree.blockCount
    rw [hdepth2]
  have hchain : ∀ k, AncOf B k →
      (markFreeAncestors (t'.setState B .free)
        (t'.setState B .free).depth B).state k = t.state k := by
    intro k hk
    induction hk with
    | refl => rw [hstB2, hfree]
    | @left i hi ih =>
      have hile : 2 * i + 1 ≤ B := hi.le
      have hanci : AncOf B i := anc_child_left_trans hi
      have hine : i ≠ B := by omega
      have hint : i < t.firstLeaf := strict_anc_internal hWF hB hanci hine
      have hibc : i < t.blockCount := by
        have := firstLeaf_lt_blockCount hWF
        omega
      have hrbc : 2 * i + 2 < t.blockCount := child_lt_blockCount hWF hint
      have hsib : ¬ AncOf B (2 * i + 2) :=
        fun hc => sibling_subtrees_disjoint hi hc
      have hst_t : t.state i = combine (t.state (2 * i + 1)) (t.state (2 * i + 2)) := by
        apply (hInv i hint).2
        rcases hanc i hanci hine with h1 | h1 <;> rw [h1] <;> simp
      have hst_2 : (markFreeAncestors (t'.setState B .free)
          (t'.setState B .free).depth B).state i =
          combine ((markFreeAncestors (t'.setState B .free)
            (t'.setState B .free).depth B).state (2 * i + 1))
            ((markFreeAncestors (t'.setState B .free)
              (t'.setState B .free).depth B).state (2 * i + 2)) := by
        apply (hInv2 i (by rw [show (markFreeAncestors (t'.setState B .free)
          (t'.setState B .free).depth B).firstLeaf = t.firstLeaf from hfl2]; exact hint)).2
        rcases hancpost2 i hanci hine with h1 | h1 <;> rw [h1] <;> simp
      have hsr : (markFreeAncestors (t'.setState B .free)
          (t'.setState B .free).depth B).state (2 * i + 2) = t.state (2 * i + 2) := by
        rw [hframe2 (2 * i + 2) (by rw [hbc]; exact hrbc) hsib]
        exact hframe (2 * i + 2) hrbc hsib
      rw [hst_2, hst_t, ih, hsr]
    | @right i hi ih =>
      have hile : 2 * i + 2 ≤ B := hi.le
      have hanci : AncOf B i := anc_child_right_trans hi
      have hine : i ≠ B := by omega
      have hint : i < t.firstLeaf := strict_anc_internal hWF hB hanci hine
      have hibc : i < t.blockCount := by
        have := firstLeaf_lt_blockCount hWF
        omega
      have hlbc : 2 * i + 1 < t.blockCount := by
        have := child_lt_blockCount hWF hint
        omega
      have hsib : ¬ AncOf B (2 * i + 1) :=
        fun hc => sibling_subtrees_disjoint hc hi
      have hst_t : t.state i = combine (t.state (2 * i + 1)) (t.state (2 * i + 2)) := by
        apply (hInv i hint).2
        rcases hanc i hanci hine with h1 | h1 <;> rw [h1] <;> simp
      have hst_2 : (markFreeAncestors (t'.setState B .free)
          (t'.setState B .free).depth B).state i =
          combine ((markFreeAncestors (t'.setState B .free)
            (t'.setState B .free).depth B).state (2 * i + 1))
            ((markFreeAncestors (t'.setState B .free)
              (t'.setState B .free).depth B).state (2 * i + 2)) := by
        apply (hInv2 i (by rw [show (markFreeAncestors (t'.setState B .free)
          (t'.setState B .free).depth B).firstLeaf = t.firstLeaf from hfl2]; exact hint)).2
        rcases hancpost2 i hanci hine with h1 | h1 <;> rw [h1] <;> simp
      have hsl : (markFreeAncestors (t'.setState B .free)
          (t'.setState B .free).depth B).state (2 * i + 1) = t.state (2 * i + 1) := by
        rw [hframe2 (2 * i + 1) (by rw [hbc]; exact hlbc) hsib]
        exact hframe (2 * i + 1) hlbc hsib
      rw [hst_2, hst_t, ih, hsl]
  have hfinal : markFreeAncestors (t'.setState B .free)
      (t'.setState B .free).depth B = t := by
    apply tree_eq_of_state_eq hWF2 hdepth2 hfl2 hlb2 hlen2
    intro k hk
    rw [hbc2] at hk
    by_cases hanck : AncOf B k
    · exact hchain k hanck
    · rw [hframe2 k (by rw [hbc]; exact hk) hanck]
      exact hframe k hk hanck
  unfold Tree.free
  rw [hC]
  show ((Except.ok () : Except DoubleFreeError Unit),
    markFreeAncestors (t'.setState B .free) (t'.setState B .free).depth B) = (.ok (), t)
  rw [hfinal]

/-! ### Further helper lemmas for the claim theorems -/

theorem allocate_none_anatomy {t : Tree} {size : Nat}
    (h : t.allocate size = none) : ¬ heightOf size ≤ t.depth := by
  unfold Tree.allocate at h
  cases size with
  | zero => exact absurd h (by simp)
  | succ n =>
    by_cases hh : heightOf (n + 1) ≤ t.depth
    · rw [if_pos hh] at h
      cases hs : t.allocSearch (t.depth - heightOf (n + 1)) with
      | none => rw [hs] at h; exact absurd h (by simp)
      | some B => rw [hs] at h; exact absurd h (by simp)
    · exact hh

theorem two_pow_heightOf {k : Nat} (hk : 1 ≤ k) : 2 ^ heightOf k = nextPow2 k := by
  unfold heightOf nextPow2
  by_cases h1 : k = 1
  · subst h1
    simp
  · rw [if_neg h1, if_neg (by omega : ¬ k ≤ 1)]

theorem le_nextPow2 (k : Nat) : k ≤ nextPow2 k := by
  unfold nextPow2
  by_cases h1 : k ≤ 1
  · rw [if_pos h1]; omega
  · rw [if_neg h1]
    have h := lt_two_pow_bdepth (k - 2)
    unfold bdepth at h
    have he : k - 2 + 1 = k - 1 := by omega
    rw [he] at h
    omega

theorem nextPow2_le_pow {k m : Nat} (h : k ≤ 2 ^ m) : nextPow2 k ≤ 2 ^ m := by
  unfold nextPow2
  by_cases h1 : k ≤ 1
  · rw [if_pos h1]
    exact Nat.one_le_two_pow
  · rw [if_neg h1, log2c_eq]
    have hk1 : k - 1 ≠ 0 := by omega
    have hlt : Nat.log2 (k - 1) < m := by
      rw [Nat.log2_lt hk1]
      omega
    exact Nat.pow_le_pow_right (by omega) (by omega)

theorem pairwise_disjoint_of_liveSpec {t : Tree} (hWF : t.WF) (hInv : Inv t) :
    ∀ {live : List (Nat × Nat)}, (∀ p ∈ live, t.liveSpec p) →
      (live.map Prod.fst).Nodup →
      live.Pairwise (fun p q => p.1 + p.2 ≤ q.1 ∨ q.1 + q.2 ≤ p.1) := by
  intro live
  induction live with
  | nil => intro _ _; exact List.Pairwise.nil
  | cons p rest ih =>
    intro hspec hnd
    rw [List.map_cons, List.nodup_cons] at hnd
    refine List.Pairwise.cons ?_ (ih (fun q hq => hspec q (List.mem_cons_of_mem p hq)) hnd.2)
    intro q hq
    obtain ⟨bp, hbp, hsp, hop, hszp⟩ := hspec p (List.mem_cons_self p rest)
    obtain ⟨bq, hbq, hsq, hoq, hszq⟩ := hspec q (List.mem_cons_of_mem p hq)
    have hne1 : p.1 ≠ q.1 := by
      intro hc
      exact hnd.1 (by rw [hc]; exact List.mem_map_of_mem Prod.fst hq)
    have hbne : bp ≠ bq := by
      intro hc
      exact hne1 (by rw [← hop, ← hoq, hc])
    have hd := allocated_disjoint hWF hInv hbp hbq hsp hsq hbne
    rw [hop, hoq, hszp, hszq] at hd
    exact hd

/-! ### The claims -/

/-- C1 counterexample: on a fresh 4-page allocator, `allocate 3` makes the tree
hand back a block of (rounded-up) size 4 units, but the returned byte size is
`block_count * PAGE_SIZE = 12288`, not the claimed `size * PAGE_SIZE = 16384`. -/
theorem C1_counterexample :
    allocC1.tree.allocate 3 = some (.ok ⟨0, 4⟩, treeW1) ∧
    allocC1.isWithinHeap ⟨0, 4⟩ = true ∧
    allocC1.allocate 3 = some (.ok ⟨8192, 12288⟩, ⟨treeW1, 8192, 2, 4⟩) ∧
    (12288 : Nat) ≠ 4 * PAGE_SIZE :=
  ⟨by decide, by decide, by decide, by decide⟩

/-- C1 (amended): when the tree's tentative allocation `(offset, size)` passes
the heap-bounds filter, `Allocator::allocate` returns
`ptr = heap + offset * PAGE_SIZE` and `size = block_count * PAGE_SIZE`
(the requested block count, not the tree's rounded-up size). -/
theorem C1_allocator_result (a : Allocator) (blockCount : Nat) (al : Allocation)
    (t' : Tree) (h : a.tree.allocate blockCount = some (.ok al, t'))
    (hin : al.offset + al.size ≤ a.heapLenPages) :
    a.allocate blockCount =
      some (.ok ⟨a.heap + al.offset * PAGE_SIZE, blockCount * PAGE_SIZE⟩,
        { a with tree := t' }) := by
  have hiw : a.isWithinHeap al = true := by
    unfold Allocator.isWithinHeap
    exact decide_eq_true hin
  unfold Allocator.allocate
  rw [h]
  show ((if a.isWithinHeap al = true then
      some (Except.ok { ptr := a.heap + al.offset * PAGE_SIZE, size := blockCount * PAGE_SIZE },
        { a with tree := t' })
    else
      match t'.free al.offset with
      | (.ok _, t2) => some (.error ⟨⟩, { a with tree := t2 })
      | (.error _, _) => none) :
      Option (Except OutOfMemoryError PageAllocation × Allocator)) =
    some (.ok { ptr := a.heap + al.offset * PAGE_SIZE, size := blockCount * PAGE_SIZE },
      { a with tree := t' })
  rw [if_pos hiw]

theorem C1_allocator_result_witness :
    (allocC1.tree.allocate 3 = some (.ok ⟨0, 4⟩, treeW1) ∧ (0 : Nat) + 4 ≤ 4) ∧
    allocC1.allocate 3 = some (.ok ⟨8192 + 0 * PAGE_SIZE, 3 * PAGE_SIZE⟩,
      { allocC1 with tree := treeW1 }) :=
  ⟨⟨by decide, by decide⟩,
    C1_allocator_result allocC1 3 ⟨0, 4⟩ treeW1 (by decide) (by decide)⟩

/-- C2 counterexample: on a depth-0 tree, `allocate 2` computes height 1 and
the debug-build subtraction `self.depth - height` underflows (a panic, modelled
as `none`), so `Tree::allocate` does not return a typed error for every
request. -/
theorem C2_counterexample : (Tree.new 1).allocate 2 = none := by decide

/-- C2 (amended): for requests within the tree's capacity
(`size ≤ 2 ^ depth`, including `size = 0`), `Tree::allocate` always returns a
value (success or typed `OutOfMemoryError`) instead of panicking, and the
`usize` subtraction `self.depth - block.depth()` inside the search visitors
never underflows: every valid block satisfies `bdepth i ≤ depth`. -/
theorem C2_total_within_capacity (t : Tree) (size : Nat) (hsize : size ≤ 2 ^ t.depth)
    (i : Nat) (hi : i < t.blockCount) :
    (t.allocate size).isSome ∧ bdepth i ≤ t.depth := by
  refine ⟨?_, bdepth_le_depth hi⟩
  cases hres : t.allocate size with
  | some r => rfl
  | none =>
    exfalso
    cases size with
    | zero => simp [Tree.allocate] at hres
    | succ n =>
      apply allocate_none_anatomy hres
      unfold heightOf
      by_cases h1 : n + 1 = 1
      · rw [if_pos h1]; omega
      · rw [if_neg h1, log2c_eq]
        simp only [Nat.add_sub_cancel]
        have hn0 : n ≠ 0 := by omega
        have hlt : Nat.log2 n < t.depth := by
          rw [Nat.log2_lt hn0]
          omega
        omega

theorem C2_total_within_capacity_witness :
    ((3 : Nat) ≤ 2 ^ (Tree.new 4).depth ∧ (5 : Nat) < (Tree.new 4).blockCount) ∧
    ((Tree.new 4).allocate 3).isSome ∧ bdepth 5 ≤ (Tree.new 4).depth :=
  ⟨⟨by decide, by decide⟩,
    C2_total_within_capacity (Tree.new 4) 3 (by decide) 5 (by decide)⟩

/-- C3: in every state reachable from a fresh tree by `Tree::allocate` /
`Tree::free`, the outstanding allocations are pairwise disjoint: for any two
distinct live `(off, sz)` pairs, one ends at or before the other starts. -/
theorem C3_live_disjoint (t : Tree) (live : List (Nat × Nat)) (h : Reach t live) :
    live.Pairwise (fun p q => p.1 + p.2 ≤ q.1 ∨ q.1 + q.2 ≤ p.1) := by
  obtain ⟨hWF, hInv, hiff, hnd⟩ := reach_good h
  exact pairwise_disjoint_of_liveSpec hWF hInv (fun p hp => (hiff p).mp hp) hnd

theorem C3_live_disjoint_witness :
    ([(1, 1), (0, 1)] : List (Nat × Nat)).Pairwise
      (fun p q => p.1 + p.2 ≤ q.1 ∨ q.1 + q.2 ≤ p.1) :=
  C3_live_disjoint treeB [(1, 1), (0, 1)]
    (Reach.allocOk
      (Reach.allocOk (Reach.init (by decide : (1 : Nat) ≤ 4))
        (by decide : (Tree.new 4).allocate 1 = some (.ok ⟨0, 1⟩, treeA)))
      (by decide : treeA.allocate 1 = some (.ok ⟨1, 1⟩, treeB)))

/-- C4: in every reachable state, every internal node that is not itself
`Allocated` carries exactly the state `combine` of its two children
(Free+Free ↦ Free, both-full ↦ SuperblockFull, otherwise Superblock). -/
theorem C4_internal_state (t : Tree) (live : List (Nat × Nat)) (h : Reach t live)
    (i : Nat) (hi : i < t.firstLeaf) (hna : t.state i ≠ .allocated) :
    t.state i = combine (t.state (2 * i + 1)) (t.state (2 * i + 2)) :=
  ((reach_good h).2.1 i hi).2 hna

theorem C4_internal_state_witness :
    treeA.state 0 = combine (treeA.state 1) (treeA.state 2) :=
  C4_internal_state treeA [(0, 1)]
    (Reach.allocOk (Reach.init (by decide : (1 : Nat) ≤ 4))
      (by decide : (Tree.new 4).allocate 1 = some (.ok ⟨0, 1⟩, treeA)))
    0 (by decide) (by decide)

/-- C5: every successful `allocate k` returns `size = nextPow2 k` (the least
power of two that is `≥ k`, witnessed by `k ≤ size` and minimality against any
power of two `≥ k`) and an offset that is a multiple of that size. -/
theorem C5_size_rounding (t : Tree) (k : Nat) (al : Allocation) (t' : Tree)
    (h : t.allocate k = some (.ok al, t')) (m : Nat) (hm : k ≤ 2 ^ m) :
    al.size = nextPow2 k ∧ k ≤ al.size ∧ al.size ≤ 2 ^ m ∧ al.offset % al.size = 0 := by
  have hk : 1 ≤ k := by
    by_contra hc
    have hk0 : k = 0 := by omega
    subst hk0
    unfold Tree.allocate at h
    simp at h
  obtain ⟨B, hh, hs, hal, ht'⟩ := allocate_ok_anatomy h
  subst hal
  refine ⟨?_, ?_, ?_, ?_⟩
  · show 1 <<< heightOf k = nextPow2 k
    rw [Nat.shiftLeft_eq, one_mul, two_pow_heightOf hk]
  · show k ≤ 1 <<< heightOf k
    rw [Nat.shiftLeft_eq, one_mul, two_pow_heightOf hk]
    exact le_nextPow2 k
  · show 1 <<< heightOf k ≤ 2 ^ m
    rw [Nat.shiftLeft_eq, one_mul, two_pow_heightOf hk]
    exact nextPow2_le_pow hm
  · show (boffset B <<< heightOf k) % (1 <<< heightOf k) = 0
    rw [Nat.shiftLeft_eq, Nat.shiftLeft_eq, one_mul]
    exact Nat.mul_mod_left _ _

theorem C5_size_rounding_witness :
    ((Tree.new 8).allocate 5 = some (.ok ⟨0, 8⟩, treeC) ∧ (5 : Nat) ≤ 2 ^ 3) ∧
    (8 : Nat) = nextPow2 5 ∧ (5 : Nat) ≤ 8 ∧ (8 : Nat) ≤ 2 ^ 3 ∧ (0 : Nat) % 8 = 0 :=
  ⟨⟨by decide, by decide⟩,
    C5_size_rounding (Tree.new 8) 5 ⟨0, 8⟩ treeC (by decide) 3 (by decide)⟩

/-- C6: on any reachable state, a successful `allocate` followed by `free` of
the returned offset succeeds and restores the tree (hence its bit buffer)
exactly to the pre-allocate state. -/
theorem C6_alloc_free_roundtrip (t : Tree) (live : List (Nat × Nat)) (size : Nat)
    (al : Allocation) (t' : Tree) (h : Reach t live)
    (ha : t.allocate size = some (.ok al, t')) :
    t'.free al.offset = (.ok (), t) :=
  alloc_free_restore (reach_good h).1 (reach_good h).2.1 ha

theorem C6_alloc_free_roundtrip_witness :
    (Tree.new 2).allocate 1 = some (.ok ⟨0, 1⟩, treeD) ∧
    treeD.free 0 = (.ok (), Tree.new 2) :=
  ⟨by decide,
    C6_alloc_free_roundtrip (Tree.new 2) [] 1 ⟨0, 1⟩ treeD
      (Reach.init (by decide : (1 : Nat) ≤ 2))
      (by decide : (Tree.new 2).allocate 1 = some (.ok ⟨0, 1⟩, treeD))⟩

/-- C7: a failed `allocate` (OutOfMemory) and a failed `free` (DoubleFree)
both leave the bit buffer unchanged. -/
theorem C7_errors_no_mutation (t : Tree) (s : Nat) (e1 : OutOfMemoryError) (t1 : Tree)
    (u : Tree) (off : Nat) (e2 : DoubleFreeError) (u1 : Tree)
    (h1 : t.allocate s = some (.error e1, t1)) (h2 : u.free off = (.error e2, u1)) :
    t1.storage = t.storage ∧ u1.storage = u.storage :=
  ⟨by rw [allocate_err_anatomy h1], by rw [(free_err_anatomy h2).1]⟩

theorem C7_errors_no_mutation_witness :
    ((Tree.new 2).allocate 0 = some (.error ⟨⟩, Tree.new 2) ∧
      treeD.free 1 = (.error ⟨⟩, treeD)) ∧
    (Tree.new 2).storage = (Tree.new 2).storage ∧ treeD.storage = treeD.storage :=
  ⟨⟨by decide, by decide⟩,
    C7_errors_no_mutation (Tree.new 2) 0 ⟨⟩ (Tree.new 2) treeD 1 ⟨⟩ treeD
      (by decide) (by decide)⟩

/-- C8: when the tree hands back a tentative block that extends past the real
heap end, `Allocator::allocate` frees it back into the tree (that free is
guaranteed to succeed) and returns OutOfMemory with the allocator — in
particular its tree — restored exactly to the pre-call state. -/
theorem C8_over_heap_freed_back (a : Allocator) (bc : Nat) (al : Allocation) (t' : Tree)
    (hWF : a.tree.WF) (hInv : Inv a.tree)
    (h : a.tree.allocate bc = some (.ok al, t'))
    (hover : a.heapLenPages < al.offset + al.size) :
    a.allocate bc = some (.error ⟨⟩, a) := by
  have hrestore : t'.free al.offset = (.ok (), a.tree) := alloc_free_restore hWF hInv h
  have hiw : a.isWithinHeap al = false := by
    unfold Allocator.isWithinHeap
    exact decide_eq_false (by omega)
  have hnc : ¬ (a.isWithinHeap al = true) := by
    rw [hiw]
    exact Bool.false_ne_true
  unfold Allocator.allocate
  rw [h]
  show ((if a.isWithinHeap al = true then
      some (Except.ok { ptr := a.heap + al.offset * PAGE_SIZE, size := bc * PAGE_SIZE },
        { a with tree := t' })
    else
      match t'.free al.offset with
      | (.ok _, t2) => some (.error ⟨⟩, { a with tree := t2 })
      | (.error _, _) => none) :
      Option (Except OutOfMemoryError PageAllocation × Allocator)) =
    some (.error ⟨⟩, a)
  rw [if_neg hnc, hrestore]

theorem C8_over_heap_freed_back_witness :
    (alloc0.allocate 2 = some (.ok ⟨8192, 8192⟩, alloc1) ∧
      alloc1.tree.allocate 2 = some (.ok ⟨2, 2⟩, treeX) ∧
      alloc1.heapLenPages < 2 + 2) ∧
    alloc1.allocate 2 = some (.error ⟨⟩, alloc1) ∧
    alloc1.allocate 1 = some (.ok ⟨16384, 4096⟩, alloc2) :=
  ⟨⟨by decide, by decide, by decide⟩,
    C8_over_heap_freed_back alloc1 2 ⟨2, 2⟩ treeX (by decide) (by decide)
      (by decide) (by decide),
    by decide⟩

/-- C9 counterexample: after `allocate 2` on a fresh 4-leaf tree, leaf block 3
still has stored state `Free` at the target depth of a 1-unit request with unit
offset 0, yet `allocate 1` returns offset 2: the returned offset is not the
minimum over the offsets of all Free blocks at the target depth (stale Free
bits below an Allocated block are skipped by the pruned search). -/
theorem C9_counterexample :
    (Tree.new 4).allocate 2 = some (.ok ⟨0, 2⟩, treeE) ∧
    treeE.allocate 1 = some (.ok ⟨2, 1⟩, treeF) ∧
    treeE.depth - heightOf 1 = 2 ∧ (3 : Nat) < treeE.blockCount ∧
    bdepth 3 = 2 ∧ treeE.state 3 = .free ∧ treeE.unitOffset 3 = 0 ∧
    ¬ ((2 : Nat) ≤ 0) :=
  ⟨by decide, by decide, by decide, by decide, by decide, by decide, by decide,
    by decide⟩

/-- C9 (amended): when `allocate` succeeds, the block it marks is a *reachable*
Free block at the target depth (no strict ancestor Allocated or SuperblockFull),
the returned offset and size are that block's unit offset and unit size, and
the offset is minimal among the unit offsets of all reachable Free blocks at
the target depth (left-child-first pre-order). -/
theorem C9_leftmost_reachable (t : Tree) (size : Nat) (al : Allocation) (t' : Tree)
    (B : Nat) (h : t.allocate size = some (.ok al, t'))
    (hB : t.allocSearch (t.depth - heightOf size) = some B) (j : Nat)
    (hj : t.reachableFree (t.depth - heightOf size) j) :
    t.reachableFree (t.depth - heightOf size) B ∧ al.offset = t.unitOffset B ∧
      al.size = t.unitSize B ∧ al.offset ≤ t.unitOffset j := by
  obtain ⟨B0, hh, hs, hal, ht'⟩ := allocate_ok_anatomy h
  rw [hs] at hB
  have hBB : B0 = B := Option.some.inj hB
  subst hBB
  obtain ⟨hBlt, hdB, hfree, hanc⟩ := allocSearch_sound hs
  have hrfB : t.reachableFree (t.depth - heightOf size) B0 := by
    refine ⟨hBlt, hdB, hfree, ?_⟩
    intro a ha
    obtain ⟨hanc1, hne⟩ := mem_strictAncestors.mp ha
    rcases hanc a hanc1 hne with h1 | h1 <;> rw [h1] <;> exact ⟨by simp, by simp⟩
  have hoffB : al.offset = t.unitOffset B0 := by
    rw [hal]
    show boffset B0 <<< heightOf size = boffset B0 <<< (t.depth - bdepth B0)
    rw [hdB]
    congr 1
    omega
  have hsizeB : al.size = t.unitSize B0 := by
    rw [hal]
    show 1 <<< heightOf size = 1 <<< (t.depth - bdepth B0)
    rw [hdB]
    congr 1
    omega
  refine ⟨hrfB, hoffB, hsizeB, ?_⟩
  have hmin := allocSearch_min hs hj
  obtain ⟨hjlt, hdj, _, _⟩ := hj
  rw [hoffB]
  unfold Tree.unitOffset
  rw [hdB, hdj, Nat.shiftLeft_eq, Nat.shiftLeft_eq]
  exact Nat.mul_le_mul_right _ hmin

theorem C9_leftmost_reachable_witness :
    treeE.allocSearch (treeE.depth - heightOf 1) = some 5 ∧
    (2 : Nat) = treeE.unitOffset 5 ∧ (1 : Nat) = treeE.unitSize 5 ∧
      (2 : Nat) ≤ treeE.unitOffset 5 :=
  ⟨by decide,
    (C9_leftmost_reachable treeE 1 ⟨2, 1⟩ treeF 5 (by decide) (by decide) 5
      (by decide)).2⟩

/-- C10: a successful `allocate` only rewrites the found block and its
ancestors on the path to the root, and a successful `free` likewise: every
block outside the found block's root path keeps its stored state. -/
theorem C10_frame (t : Tree) (s : Nat) (al : Allocation) (t' : Tree) (B : Nat)
    (hWFt : t.WF) (h : t.allocate s = some (.ok al, t'))
    (hB : t.allocSearch (t.depth - heightOf s) = some B)
    (k : Nat) (hk : k < t.blockCount) (hkB : k ∉ B :: strictAncestors B)
    (u : Tree) (off : Nat) (u' : Tree) (C : Nat)
    (hWFu : u.WF) (hu : u.free off = (.ok (), u'))
    (hC : u.freeSearch off = some C)
    (m : Nat) (hm : m < u.blockCount) (hmC : m ∉ C :: strictAncestors C) :
    t'.state k = t.state k ∧ u'.state m = u.state m := by
  constructor
  · obtain ⟨B0, hh, hs, hal, ht'⟩ := allocate_ok_anatomy h
    rw [hs] at hB
    have hBB : B0 = B := Option.some.inj hB
    subst hBB
    have hnkB : ¬ (AncOf B0 k ∧ k ≠ B0) := by
      intro hc
      exact hkB (List.mem_cons_of_mem B0 (mem_strictAncestors.mpr hc))
    have hkne : B0 ≠ k := by
      intro he
      exact hkB (by rw [← he]; exact List.mem_cons_self B0 _)
    rw [ht']
    rw [markAllocAncestors_frame (setState_WF hWFt B0 .allocated)
      (by rw [setState_blockCount]; exact hk) hnkB]
    exact state_setState_ne hWFt hkne hk _
  · obtain ⟨C0, hs, hu'⟩ := free_ok_anatomy hu
    rw [hs] at hC
    have hCC : C0 = C := Option.some.inj hC
    subst hCC
    have hnmC : ¬ (AncOf C0 m ∧ m ≠ C0) := by
      intro hc
      exact hmC (List.mem_cons_of_mem C0 (mem_strictAncestors.mpr hc))
    have hmne : C0 ≠ m := by
      intro he
      exact hmC (by rw [← he]; exact List.mem_cons_self C0 _)
    rw [hu']
    rw [markFreeAncestors_frame (setState_WF hWFu C0 .free)
      (by rw [setState_blockCount]; exact hm) hnmC]
    exact state_setState_ne hWFu hmne hm _

theorem C10_frame_witness :
    ((Tree.new 4).allocSearch ((Tree.new 4).depth - heightOf 1) = some 3 ∧
      (4 : Nat) ∉ (3 : Nat) :: strictAncestors 3 ∧
      treeA.free 0 = (.ok (), Tree.new 4) ∧ treeA.freeSearch 0 = some 3) ∧
    treeA.state 4 = (Tree.new 4).state 4 ∧ (Tree.new 4).state 4 = treeA.state 4 :=
  ⟨⟨by decide, by decide, by decide, by decide⟩,
    C10_frame (Tree.new 4) 1 ⟨0, 1⟩ treeA 3 (by decide) (by decide) (by decide)
      4 (by decide) (by decide)
      treeA 0 (Tree.new 4) 3 (by decide) (by decide) (by decide)
      4 (by decide) (by decide)⟩

end Micropuppy
